import Mathlib

/-! # pkgdiff (`rpm/main.c`): a shallow embedding and its verified properties

The program reads two lists of RPM style package identifiers
(`name-version-release.arch`), matches the entries of list A against the
entries of list B (exact match first, then name-only match) and prints a
sorted report.

Conventions of the embedding

* A C string is the list of its bytes before the terminating NUL; one `Char`
  stands for one C `char`.
* `strncpy (dst, src, N - 1); dst[N - 1] = 0` keeps the first `N - 1` bytes.
* A `char*` into a buffer is the `Nat` offset from the start of the buffer,
  a `NULL` result is `none`.
* `int` results that are an index or `-1` are `Option Nat`.
* A file is the list of its bytes, NUL bytes included; `fopen` failing is
  `none`.  A buffer filled by `fgets` is read as the C string it holds
  (`c_string`).
* The C library's `qsort` is a parameter, constrained by what the C standard
  promises of it (`QsortContract`).
-/

namespace PkgDiff

/-! ## Constants and data model -/

/-- C string: the bytes before the terminating NUL. -/
abbrev CStr := List Char

def MAX_LINE_LENGTH : Nat := 512
def MAX_PACKAGES : Nat := 10000
def MAX_NAME_LENGTH : Nat := 256
def MAX_VERSION_LENGTH : Nat := 128
def MAX_ARCH_LENGTH : Nat := 32

/-- The struct `ComparisonResult`. -/
structure ComparisonResult where
  package_a : CStr
  package_b : CStr
  status : Char
  sort_key : CStr
deriving DecidableEq, Repr, Inhabited

/-- The struct `Package`. -/
structure Package where
  name : CStr
  version : CStr
  arch : CStr
  full_line : CStr
deriving DecidableEq, Repr, Inhabited

/-! ## libc string functions -/

/-- The call `strncpy(dst, src, n); dst[n] = 0`: the first `n` bytes of `src`. -/
def strncpy (src : CStr) (n : Nat) : CStr := src.take n

/-- The call `strchr(s, c)`: offset of the first occurrence of `c`. -/
def strchr : CStr → Char → Option Nat
  | [], _ => none
  | x :: xs, c => if x = c then some 0 else (strchr xs c).map (· + 1)

/-- The call `strrchr(s, c)`: offset of the last occurrence of `c`. -/
def strrchr : CStr → Char → Option Nat
  | [], _ => none
  | x :: xs, c =>
    match strrchr xs c with
    | some i => some (i + 1)
    | none => if x = c then some 0 else none

/-- The call `strcmp(a, b)`: zero for equal strings, otherwise the sign of the
comparison of the first differing bytes (the terminator is smaller than every
byte of a string); only the sign is fixed by the C standard. -/
def strcmp : CStr → CStr → Int
  | [], [] => 0
  | [], _ :: _ => -1
  | _ :: _, [] => 1
  | a :: as, b :: bs => if a = b then strcmp as bs else if a < b then -1 else 1

/-! ## `parse_package` -/

/-- The `while (ptr < last_hyphen)` loop of `parse_package`: `ptr` and
`second` are the loop variables `ptr` and `second_last_hyphen`; the result is
the final `second_last_hyphen`.  `fuel` bounds the number of iterations. -/
def scan_second_last (temp : CStr) (last_hyphen : Nat) : Nat → Nat → Option Nat → Option Nat
  | 0, _, second => second
  | fuel + 1, ptr, second =>
    if ptr < last_hyphen then
      match strchr (temp.drop ptr) '-' with
      | some k =>
        if ptr + k < last_hyphen then
          scan_second_last temp last_hyphen fuel (ptr + k + 1) (some (ptr + k))
        else second
      | none => second
    else second

/-- The function `parse_package`: `none` is the return value 0, `some pkg` is
the return value 1 together with the fields written to `*pkg`. -/
def parse_package (package_str : CStr) : Option Package :=
  let temp := strncpy package_str (MAX_LINE_LENGTH - 1)
  let temp := match strchr temp '\n' with
    | some newline => temp.take newline
    | none => temp
  let full_line := strncpy temp (MAX_LINE_LENGTH - 1)
  match strrchr temp '.' with
  | none => none
  | some last_dot =>
    let arch := strncpy (temp.drop (last_dot + 1)) (MAX_ARCH_LENGTH - 1)
    let temp := temp.take last_dot
    match strrchr temp '-' with
    | none => none
    | some last_hyphen =>
      match scan_second_last temp last_hyphen temp.length 0 none with
      | none => none
      | some second_last_hyphen =>
        let version := strncpy (temp.drop (second_last_hyphen + 1)) (MAX_VERSION_LENGTH - 1)
        let temp := temp.take second_last_hyphen
        let name := strncpy temp (MAX_NAME_LENGTH - 1)
        some { name := name, version := version, arch := arch, full_line := full_line }

/-! ## Matching -/

/-- The function `packages_equal`. -/
def packages_equal (a b : Package) : Bool :=
  strcmp a.name b.name == 0 && strcmp a.version b.version == 0 && strcmp a.arch b.arch == 0

/-- The function `compare_results`, the comparator handed to `qsort`. -/
def compare_results (a b : ComparisonResult) : Int :=
  strcmp a.sort_key b.sort_key

/-- The function `find_exact_package`: the first `i < count` with
`!processed[i] && packages_equal(&packages[i], target)`, or `none` for `-1`. -/
def find_exact_package (packages : List Package) (count : Nat) (target : Package)
    (processed : List Bool) : Option Nat :=
  (List.range count).find? fun i =>
    !processed.getD i false && packages_equal (packages.getD i default) target

/-- The function `find_package_by_name`: the first `i < count` with
`!processed[i] && strcmp(packages[i].name, name) == 0`, or `none` for `-1`. -/
def find_package_by_name (packages : List Package) (count : Nat) (name : CStr)
    (processed : List Bool) : Option Nat :=
  (List.range count).find? fun i =>
    !processed.getD i false && strcmp (packages.getD i default).name name == 0

/-- One iteration of the loop over A in `main`, for the entry `a = packages_a[i]`:
the new `processed_b`, the final value of the local `found_idx`, and the
result stored at `results[result_count]`. -/
def match_iteration (packages_b : List Package) (count_b : Nat) (a : Package)
    (processed_b : List Bool) : List Bool × Option Nat × ComparisonResult :=
  match find_exact_package packages_b count_b a processed_b with
  | some found_idx =>
    (processed_b.set found_idx true, some found_idx,
      { package_a := a.full_line, package_b := (packages_b.getD found_idx default).full_line,
        status := '=', sort_key := a.name })
  | none =>
    match find_package_by_name packages_b count_b a.name processed_b with
    | none =>
      (processed_b, none,
        { package_a := a.full_line, package_b := [], status := '<', sort_key := a.name })
    | some found_idx =>
      (processed_b.set found_idx true, some found_idx,
        { package_a := a.full_line, package_b := (packages_b.getD found_idx default).full_line,
          status := '|', sort_key := a.name })

/-- The loop `for (i = 0; i < count_a; i++)` of `main` over the entries of A
still to be visited: the final `processed_b` and, per iteration in order, the
value of `found_idx` with the result appended. -/
def match_loop_a (packages_b : List Package) (count_b : Nat) :
    List Package → List Bool → List Bool × List (Option Nat × ComparisonResult)
  | [], processed_b => (processed_b, [])
  | a :: rest, processed_b =>
    let step := match_iteration packages_b count_b a processed_b
    let tail := match_loop_a packages_b count_b rest step.1
    (tail.1, step.2 :: tail.2)

/-- The loop `for (i = 0; i < count_b; i++)` of `main` that appends a `>` result
for every B entry with `!processed_b[i]`; each result comes with its index `i`. -/
def match_loop_b (packages_b : List Package) (count_b : Nat) (processed_b : List Bool) :
    List (Option Nat × ComparisonResult) :=
  (List.range count_b).filterMap fun i =>
    if !processed_b.getD i false then
      some (some i,
        { package_a := [], package_b := (packages_b.getD i default).full_line,
          status := '>', sort_key := (packages_b.getD i default).name })
    else none

/-- The two matching loops of `main` on the loaded lists, with `processed_b`
from `calloc`: every element of `results` in order, paired with the index of
the B entry it refers to (`found_idx` in the first loop, `i` in the second). -/
def match_trace (packages_a packages_b : List Package) : List (Option Nat × ComparisonResult) :=
  let loop_a := match_loop_a packages_b packages_b.length packages_a
    (List.replicate packages_b.length false)
  loop_a.2 ++ match_loop_b packages_b packages_b.length loop_a.1

/-- The array `results` of `main` after the two matching loops. -/
def match_results (packages_a packages_b : List Package) : List ComparisonResult :=
  (match_trace packages_a packages_b).map Prod.snd

/-! ## Partition and sort -/

/-- The array `a_results` of `main` before sorting. -/
def a_results (results : List ComparisonResult) : List ComparisonResult :=
  results.filter fun r => r.status != '>'

/-- The array `b_only_results` of `main` before sorting. -/
def b_only_results (results : List ComparisonResult) : List ComparisonResult :=
  results.filter fun r => r.status == '>'

/-- What the C standard promises of `qsort(base, n, size, compar)`, for the
comparator `compare_results`: the array is rearranged (a permutation) into
ascending order of the comparator.  The order of elements that compare equal
is unspecified. -/
def QsortContract (qsort : List ComparisonResult → List ComparisonResult) : Prop :=
  ∀ l, (qsort l).Perm l ∧ (qsort l).Pairwise fun a b => compare_results a b ≤ 0

/-- The rows in the order `main` prints them: the sorted `a_results`, then the
sorted `b_only_results`.  The C library's `qsort` is a parameter. -/
def report_rows (qsort : List ComparisonResult → List ComparisonResult)
    (packages_a packages_b : List Package) : List ComparisonResult :=
  qsort (a_results (match_results packages_a packages_b)) ++
    qsort (b_only_results (match_results packages_a packages_b))

/-! ## Rendering -/

/-- The loop over the sorted `a_results` in console mode: the line `printf`
writes for one result, nothing when its status is none of `=`, `|`, `<`. -/
def console_a_line (r : ComparisonResult) : Option CStr :=
  if r.status = '=' then some (r.package_a ++ '\t' :: '=' :: '\t' :: r.package_b ++ ['\n'])
  else if r.status = '|' then
    some (r.package_a ++ '\t' :: '|' :: '\t' :: r.package_b ++ ['\n'])
  else if r.status = '<' then some (r.package_a ++ ['\t', '<', '\t', '\n'])
  else none

/-- The loop over the sorted `b_only_results` in console mode: the line written
for one result. -/
def console_b_line (r : ComparisonResult) : CStr :=
  '\t' :: '>' :: '\t' :: r.package_b ++ ['\n']

/-- The result lines `main` prints in console mode, given the two sorted arrays. -/
def console_output (a_sorted b_sorted : List ComparisonResult) : List CStr :=
  a_sorted.filterMap console_a_line ++ b_sorted.map console_b_line

/-- The loop over the sorted `a_results` in CSV mode: the line `fprintf` writes
for one result, nothing when its status is none of `=`, `|`, `<`. -/
def csv_a_line (r : ComparisonResult) : Option CStr :=
  if r.status = '=' then
    some ('"' :: r.package_a ++ '"' :: ',' :: '"' :: '=' :: '"' :: ',' :: '"' :: r.package_b ++
      ['"', '\n'])
  else if r.status = '|' then
    some ('"' :: r.package_a ++ '"' :: ',' :: '"' :: '|' :: '"' :: ',' :: '"' :: r.package_b ++
      ['"', '\n'])
  else if r.status = '<' then
    some ('"' :: r.package_a ++ ['"', ',', '"', '<', '"', ',', '"', '"', '\n'])
  else none

/-- The loop over the sorted `b_only_results` in CSV mode: the line written for
one result. -/
def csv_b_line (r : ComparisonResult) : CStr :=
  '"' :: '"' :: ',' :: '"' :: '>' :: '"' :: ',' :: '"' :: r.package_b ++ ['"', '\n']

/-- The lines `main` writes to the CSV file, given the two sorted arrays: the
header, then the result lines. -/
def csv_output (a_sorted b_sorted : List ComparisonResult) : List CStr :=
  "Package A,Status,Package B\n".toList ::
    (a_sorted.filterMap csv_a_line ++ b_sorted.map csv_b_line)

/-! ## `read_packages` -/

/-- The C string held in a buffer: the bytes before the first NUL byte.  This is
what `strlen`, `strncpy`, `strchr` and `strrchr` see of the buffer. -/
def c_string (buffer : List Char) : CStr :=
  buffer.takeWhile fun x => x != Char.ofNat 0

/-- The call `fgets(line, size, file)` on a stream with the bytes `stream` left:
`none` at end of file; otherwise the bytes stored in the buffer (up to and
including the first newline, at most `size - 1` of them; a NUL byte of the
file is stored like any other byte) and the bytes left in the stream. -/
def fgets (size : Nat) (stream : List Char) : Option (List Char × List Char) :=
  match stream with
  | [] => none
  | _ :: _ =>
    let n := match strchr (stream.take (size - 1)) '\n' with
      | some newline => newline + 1
      | none => (stream.take (size - 1)).length
    some (stream.take n, stream.drop n)

/-- The `while (fgets(...) && count < max_count)` loop of `read_packages`:
`packages` holds `packages[0 .. count - 1]`; `strlen(line)` and
`parse_package(line, ...)` work on the C string in the buffer `line`.  `fuel`
bounds the number of iterations. -/
def read_loop (max_count : Nat) : Nat → List Char → List Package → List Package
  | 0, _, packages => packages
  | fuel + 1, stream, packages =>
    match fgets MAX_LINE_LENGTH stream with
    | none => packages
    | some (line, rest) =>
      if packages.length < max_count then
        if (c_string line).length ≤ 1 then read_loop max_count fuel rest packages
        else
          match parse_package (c_string line) with
          | some pkg => read_loop max_count fuel rest (packages ++ [pkg])
          | none => read_loop max_count fuel rest packages
      else packages

/-- The function `read_packages`: `file` is `none` when `fopen` fails (result
`-1`, here `none`), else the content of the file; the result is the filled part
of the array `packages`, whose length is the returned count. -/
def read_packages (file : Option (List Char)) (max_count : Nat) : Option (List Package) :=
  match file with
  | none => none
  | some content => some (read_loop max_count content.length content [])

/-! ## Option parsing of `main` -/

/-- The local variables of `main` set by the option parsing. -/
structure Options where
  xlsx_output : Bool
  file_a : CStr
  file_b : CStr
  output_file : CStr
deriving DecidableEq, Repr

/-- The option parsing at the start of `main`, for the argument vector `argv`
(`argv[0]` is the program name): `none` when `main` prints the usage message
and returns 1, else the values of `xlsx_output`, `file_a`, `file_b` and
`output_file` with which `main` goes on. -/
def parse_options (argv : List CStr) : Option Options :=
  let argc := argv.length
  if argc < 3 ∨ argc > 5 then none
  else
    let xlsx := decide (argc ≥ 4) && (strcmp (argv.getD 1 []) "--xlsx".toList == 0)
    let custom := xlsx && decide (argc = 5)
    let output_file := if custom then argv.getD 2 [] else "rpm_diff_result.csv".toList
    let arg_idx := if xlsx then (if custom then 3 else 2) else 1
    some { xlsx_output := xlsx, file_a := argv.getD arg_idx [],
           file_b := argv.getD (arg_idx + 1) [], output_file := output_file }

/-! ## Reference notions taken from the specification -/

/-- The candidate raw line of the specification (section 4.1, step 1): the line
trimmed to the maximum supported length, without its newline. -/
def raw_line (line : CStr) : CStr :=
  (line.take (MAX_LINE_LENGTH - 1)).takeWhile fun x => x != '\n'

/-- Everything after the last occurrence of `c` in `l`. -/
def afterLast (c : Char) (l : CStr) : CStr :=
  (l.reverse.takeWhile fun x => x != c).reverse

/-- Everything before the last occurrence of `c` in `l`. -/
def beforeLast (c : Char) (l : CStr) : CStr :=
  ((l.reverse.dropWhile fun x => x != c).drop 1).reverse

/-- Everything after the second-to-last occurrence of `c` in `l`. -/
def afterSecondLast (c : Char) (l : CStr) : CStr :=
  afterLast c (beforeLast c l) ++ c :: afterLast c l

/-- Everything before the second-to-last occurrence of `c` in `l`. -/
def beforeSecondLast (c : Char) (l : CStr) : CStr :=
  beforeLast c (beforeLast c l)

/-- The identifier `name-version-release.arch` built from its four parts. -/
def mk_identifier (name version release arch : CStr) : CStr :=
  name ++ '-' :: version ++ '-' :: release ++ '.' :: arch

/-- Number of B entries `i < n` that are not yet consumed (`!processed[i]`) and
satisfy `q`. -/
def unconsumed (q : Nat → Bool) (n : Nat) (processed : List Bool) : Nat :=
  (List.range n).countP fun i => !processed.getD i false && q i

/-- Number of results with the given status symbol. -/
def count_status (c : Char) (results : List ComparisonResult) : Nat :=
  results.countP fun r => r.status == c

/-- Number of results whose sort key is `nm`. -/
def count_sort_key (nm : CStr) (results : List ComparisonResult) : Nat :=
  results.countP fun r => decide (r.sort_key = nm)

/-- Number of packages of a list whose name is `nm`. -/
def count_name (nm : CStr) (packages : List Package) : Nat :=
  packages.countP fun p => decide (p.name = nm)

/-- The status symbol after exchanging the two lists. -/
def swap_status (c : Char) : Char :=
  if c = '<' then '>' else if c = '>' then '<' else c

/-- A result row after exchanging the two lists: columns exchanged, `<` and `>`
exchanged, same sort key. -/
def swap_row (r : ComparisonResult) : ComparisonResult :=
  { package_a := r.package_b, package_b := r.package_a, status := swap_status r.status,
    sort_key := r.sort_key }

/-- The row of an A entry when names are not repeated: paired with the B entry
of the same name if there is one, Identical when the two are equal. -/
def row_of_a (packages_b : List Package) (a : Package) : ComparisonResult :=
  match packages_b.find? fun b => decide (b.name = a.name) with
  | some b =>
    { package_a := a.full_line, package_b := b.full_line,
      status := if packages_equal b a then '=' else '|', sort_key := a.name }
  | none => { package_a := a.full_line, package_b := [], status := '<', sort_key := a.name }

/-- The OnlyInB row of a B entry. -/
def row_of_b (b : Package) : ComparisonResult :=
  { package_a := [], package_b := b.full_line, status := '>', sort_key := b.name }

/-- Stability of a sort: for every sort key, the results with that key come in
the output in the same relative order as before the sort. -/
def stable_order (before after : List ComparisonResult) : Prop :=
  ∀ k : CStr, (after.filter fun r => decide (r.sort_key = k)) =
    before.filter fun r => decide (r.sort_key = k)

/-- Byte-wise order of sort keys as `compare_results` sees it. -/
def key_le (a b : CStr) : Prop := strcmp a b ≤ 0

instance key_le_decidable : DecidableRel key_le := fun a b =>
  inferInstanceAs (Decidable (strcmp a b ≤ 0))

/-- The order `qsort` is asked to establish: `compare_results a b ≤ 0`. -/
def result_le (a b : ComparisonResult) : Prop := compare_results a b ≤ 0

instance result_le_decidable : DecidableRel result_le := fun a b =>
  inferInstanceAs (Decidable (compare_results a b ≤ 0))

/-- A sorting function that meets the contract of `qsort` but is not stable:
insertion sort of the reversed array. -/
def reversing_qsort (l : List ComparisonResult) : List ComparisonResult :=
  List.insertionSort result_le l.reverse

/-- A sorting function that meets the contract of `qsort` and keeps ties in
their order: insertion sort. -/
def insertion_qsort (l : List ComparisonResult) : List ComparisonResult :=
  List.insertionSort result_le l

/-- The console row of the specification: A line, status symbol and B line,
separated by tabs. -/
def console_line (r : ComparisonResult) : CStr :=
  r.package_a ++ '\t' :: r.status :: '\t' :: r.package_b ++ ['\n']

/-- The CSV row of the specification: the three columns in double quotes,
separated by commas. -/
def csv_line (r : ComparisonResult) : CStr :=
  '"' :: r.package_a ++ '"' :: ',' :: '"' :: r.status :: '"' :: ',' :: '"' :: r.package_b ++
    ['"', '\n']

/-- The array `processed_b` at the moment the loop over A reaches index `i`. -/
def processed_before (packages_a packages_b : List Package) (i : Nat) : List Bool :=
  (match_loop_a packages_b packages_b.length (packages_a.take i)
    (List.replicate packages_b.length false)).1

/-- The B indices consumed by the loop over A: the values of `found_idx` other
than `-1`, in order. -/
def consumed (packages_a packages_b : List Package) : List Nat :=
  (match_loop_a packages_b packages_b.length packages_a
    (List.replicate packages_b.length false)).2.filterMap Prod.fst

/-- The index `j` is the lowest index of a not yet consumed B entry that
satisfies `q`. -/
def first_unconsumed (q : Nat → Bool) (n : Nat) (processed : List Bool) (j : Nat) : Prop :=
  j < n ∧ processed.getD j false = false ∧ q j = true ∧
    ∀ i, i < j → ¬ (processed.getD i false = false ∧ q i = true)

/-- The status an A entry gets when classified against the whole of B: `=` if B
has an entry with the same name, version and arch, else `|` if B has an entry
with the same name, else `<`. -/
def expected_status (packages_b : List Package) (a : Package) : Char :=
  if packages_b.any (fun b => packages_equal b a) then '='
  else if packages_b.any (fun b => decide (b.name = a.name)) then '|'
  else '<'

/-- The three pieces of a line fit the field buffers of `Package`: the name part
has at most 255 bytes, the version part at most 127, the arch part at most 31. -/
def fields_fit (line : CStr) : Prop :=
  (beforeSecondLast '-' (beforeLast '.' (raw_line line))).length ≤ MAX_NAME_LENGTH - 1 ∧
  (afterSecondLast '-' (beforeLast '.' (raw_line line))).length ≤ MAX_VERSION_LENGTH - 1 ∧
  (afterLast '.' (raw_line line)).length ≤ MAX_ARCH_LENGTH - 1

instance fields_fit_decidable (line : CStr) : Decidable (fields_fit line) :=
  inferInstanceAs (Decidable (_ ∧ _ ∧ _))

/-- The lines of a file: the content cut after every newline; each line keeps
its newline, the last line may lack one. -/
def file_lines : List Char → List CStr
  | [] => []
  | c :: cs =>
    if c = '\n' then [c] :: file_lines cs
    else
      match file_lines cs with
      | [] => [[c]]
      | l :: ls => (c :: l) :: ls

/-! ## Theorems: libc string functions -/

theorem strchr_eq_none {l : CStr} {c : Char} : strchr l c = none ↔ c ∉ l := by
  induction l with
  | nil => simp [strchr]
  | cons x xs ih =>
    by_cases h : x = c
    · simp [strchr, h]
    · simp [strchr, h, ih, Ne.symm h]

theorem strchr_append_of_mem {p : CStr} {c : Char} (q : CStr) {k : Nat}
    (h : strchr p c = some k) : strchr (p ++ q) c = some k := by
  induction p generalizing k with
  | nil => simp [strchr] at h
  | cons x xs ih =>
    by_cases hx : x = c
    · simpa [strchr, hx] using h
    · simp only [strchr, hx, if_false, Option.map_eq_some', List.cons_append] at h ⊢
      obtain ⟨j, hj, rfl⟩ := h
      exact ⟨j, ih hj, rfl⟩

theorem strchr_append_of_not_mem {p : CStr} {c : Char} (q : CStr) (h : c ∉ p) :
    strchr (p ++ c :: q) c = some p.length := by
  induction p with
  | nil => simp [strchr]
  | cons x xs ih =>
    simp only [List.mem_cons, not_or] at h
    simp [strchr, Ne.symm h.1, ih h.2]

theorem strchr_lt_length {l : CStr} {c : Char} {k : Nat} (h : strchr l c = some k) :
    k < l.length := by
  induction l generalizing k with
  | nil => simp [strchr] at h
  | cons x xs ih =>
    by_cases hx : x = c
    · simp [strchr, hx] at h; subst h; simp
    · simp only [strchr, hx, if_false, Option.map_eq_some'] at h
      obtain ⟨j, hj, rfl⟩ := h
      simpa using ih hj

theorem strchr_take {l : CStr} {c : Char} {k : Nat} (h : strchr l c = some k) :
    l.take k = l.takeWhile fun x => x != c := by
  induction l generalizing k with
  | nil => simp [strchr] at h
  | cons x xs ih =>
    by_cases hx : x = c
    · simp [strchr, hx] at h; subst h; simp [hx]
    · simp only [strchr, hx, if_false, Option.map_eq_some'] at h
      obtain ⟨j, hj, rfl⟩ := h
      simp [List.takeWhile_cons, hx, ih hj]

theorem takeWhile_ne_of_not_mem {l : CStr} {c : Char} (h : c ∉ l) :
    (l.takeWhile fun x => x != c) = l := by
  rw [List.takeWhile_eq_self_iff]
  intro x hx
  have : x ≠ c := fun e => h (e ▸ hx)
  simpa using this

theorem strrchr_eq_none {l : CStr} {c : Char} : strrchr l c = none ↔ c ∉ l := by
  induction l with
  | nil => simp [strrchr]
  | cons x xs ih =>
    cases hr : strrchr xs c with
    | none =>
      have := ih.1 hr
      by_cases h : x = c
      · simp [strrchr, hr, h]
      · simp [strrchr, hr, h, this, Ne.symm h]
    | some i =>
      have : c ∈ xs := by
        by_contra hc
        rw [ih.2 hc] at hr
        cases hr
      simp [strrchr, hr, this]

theorem strrchr_append {p q : CStr} {c : Char} (h : c ∉ q) :
    strrchr (p ++ c :: q) c = some p.length := by
  induction p with
  | nil => simp [strrchr, strrchr_eq_none.2 h]
  | cons x xs ih => simp [strrchr, ih]

theorem strrchr_split {l : CStr} {c : Char} {i : Nat} (h : strrchr l c = some i) :
    l = l.take i ++ c :: l.drop (i + 1) ∧ c ∉ l.drop (i + 1) ∧ i < l.length := by
  induction l generalizing i with
  | nil => simp [strrchr] at h
  | cons x xs ih =>
    cases hr : strrchr xs c with
    | none =>
      by_cases hx : x = c
      · simp [strrchr, hr, hx] at h
        subst h
        simpa [hx] using strrchr_eq_none.1 hr
      · simp [strrchr, hr, hx] at h
    | some j =>
      simp [strrchr, hr] at h
      subst h
      obtain ⟨h1, h2, h3⟩ := ih hr
      refine ⟨?_, ?_, ?_⟩
      · simpa using h1
      · simpa using h2
      · simpa using h3

theorem strrchr_of_strchr {l : CStr} {c : Char} {k : Nat} (h : strchr l c = some k) :
    strrchr l c =
      match strrchr (l.drop (k + 1)) c with
      | some j => some (k + 1 + j)
      | none => some k := by
  induction l generalizing k with
  | nil => simp [strchr] at h
  | cons x xs ih =>
    by_cases hx : x = c
    · simp [strchr, hx] at h
      subst h
      cases hr : strrchr xs c <;> simp [strrchr, hr, hx, Nat.add_comm]
    · simp only [strchr, hx, if_false, Option.map_eq_some'] at h
      obtain ⟨j, hj, rfl⟩ := h
      have := ih hj
      simp only [strrchr, List.drop_succ_cons]
      rw [this]
      cases hr : strrchr (xs.drop (j + 1)) c <;> simp [hx]
      omega

theorem afterLast_append {p q : CStr} {c : Char} (h : c ∉ q) :
    afterLast c (p ++ c :: q) = q := by
  have hq : c ∉ q.reverse := by simpa using h
  simp only [afterLast, List.reverse_append, List.reverse_cons, List.append_assoc,
    List.singleton_append]
  rw [List.takeWhile_append_of_pos]
  · simp [List.takeWhile_cons]
  · intro x hx
    have : x ≠ c := fun e => hq (e ▸ hx)
    simpa using this

theorem beforeLast_append {p q : CStr} {c : Char} (h : c ∉ q) :
    beforeLast c (p ++ c :: q) = p := by
  have hq : c ∉ q.reverse := by simpa using h
  simp only [beforeLast, List.reverse_append, List.reverse_cons, List.append_assoc,
    List.singleton_append]
  rw [List.dropWhile_append_of_pos]
  · simp [List.dropWhile_cons]
  · intro x hx
    have : x ≠ c := fun e => hq (e ▸ hx)
    simpa using this

/-! ## Theorems: `parse_package` -/

/-- The forward scan ends with the last hyphen before `last_hyphen`, once the
fuel is at least the distance still to be scanned. -/
theorem scan_second_last_eq (p q : CStr) :
    ∀ (fuel ptr : Nat) (second : Option Nat), ptr ≤ p.length → p.length - ptr ≤ fuel →
      scan_second_last (p ++ '-' :: q) p.length fuel ptr second =
        match strrchr (p.drop ptr) '-' with
        | some k => some (ptr + k)
        | none => second := by
  intro fuel
  induction fuel with
  | zero =>
    intro ptr second h1 h2
    have : ptr = p.length := by omega
    subst this
    simp [scan_second_last, strrchr]
  | succ fuel ih =>
    intro ptr second h1 h2
    rw [scan_second_last]
    by_cases hlt : ptr < p.length
    · rw [if_pos hlt, List.drop_append_of_le_length h1]
      cases hc : strchr (p.drop ptr) '-' with
      | none =>
        have hnm := strchr_eq_none.1 hc
        rw [strchr_append_of_not_mem q hnm, strrchr_eq_none.2 hnm]
        have : ¬ ptr + (List.drop ptr p).length < p.length := by
          simp only [List.length_drop]; omega
        simp only [if_neg this]
      | some k =>
        have hk := strchr_lt_length hc
        simp only [List.length_drop] at hk
        rw [strchr_append_of_mem _ hc]
        have hlt2 : ptr + k < p.length := by omega
        simp only [hlt2, if_true]
        rw [ih (ptr + k + 1) (some (ptr + k)) (by omega) (by omega), strrchr_of_strchr hc]
        have hd : List.drop (k + 1) (List.drop ptr p) = List.drop (ptr + k + 1) p := by
          rw [List.drop_drop]; exact congrArg (fun n => List.drop n p) (by omega)
        rw [hd]
        cases strrchr (List.drop (ptr + k + 1) p) '-' with
        | none => rfl
        | some j => exact congrArg some (by omega)
    · have : ptr = p.length := by omega
      subst this
      simp [strrchr]

theorem length_raw_line_le (line : CStr) : (raw_line line).length ≤ MAX_LINE_LENGTH - 1 := by
  unfold raw_line
  refine le_trans (List.Sublist.length_le (List.takeWhile_sublist _)) ?_
  simp [List.length_take]

/-- After the newline has been cut off, `temp` holds the raw line. -/
theorem temp_eq_raw_line (line : CStr) :
    (match strchr (strncpy line (MAX_LINE_LENGTH - 1)) '\n' with
      | some newline => (strncpy line (MAX_LINE_LENGTH - 1)).take newline
      | none => strncpy line (MAX_LINE_LENGTH - 1)) = raw_line line := by
  unfold raw_line strncpy
  cases h : strchr (List.take (MAX_LINE_LENGTH - 1) line) '\n' with
  | none => simp only; rw [takeWhile_ne_of_not_mem (strchr_eq_none.1 h)]
  | some k => simp only; exact strchr_take h

/-- The function `parse_package` as a function of the raw line, with the scan
loop replaced by the position it computes. -/
theorem parse_package_eq (line : CStr) :
    parse_package line =
      match strrchr (raw_line line) '.' with
      | none => none
      | some d =>
        match strrchr ((raw_line line).take d) '-' with
        | none => none
        | some h =>
          match strrchr (((raw_line line).take d).take h) '-' with
          | none => none
          | some h2 =>
            some { name := (((raw_line line).take d).take h2).take (MAX_NAME_LENGTH - 1),
                   version := (((raw_line line).take d).drop (h2 + 1)).take (MAX_VERSION_LENGTH - 1),
                   arch := ((raw_line line).drop (d + 1)).take (MAX_ARCH_LENGTH - 1),
                   full_line := raw_line line } := by
  unfold parse_package
  simp only [temp_eq_raw_line]
  cases hd : strrchr (raw_line line) '.' with
  | none => rfl
  | some d =>
    simp only
    cases hh : strrchr ((raw_line line).take d) '-' with
    | none => rfl
    | some h =>
      simp only
      obtain ⟨hs1, -, hs3⟩ := strrchr_split hh
      have hscan := scan_second_last_eq (((raw_line line).take d).take h)
        (((raw_line line).take d).drop (h + 1)) ((raw_line line).take d).length 0 none
        (Nat.zero_le _) (by simp only [List.length_take]; omega)
      rw [← hs1] at hscan
      have hlen : (((raw_line line).take d).take h).length = h := by
        rw [List.length_take]; omega
      rw [hlen] at hscan
      rw [hscan]
      simp only [List.drop_zero]
      cases h2 : strrchr (((raw_line line).take d).take h) '-' with
      | none => rfl
      | some k =>
        simp only [Nat.zero_add]
        have hfull : strncpy (raw_line line) (MAX_LINE_LENGTH - 1) = raw_line line := by
          unfold strncpy
          exact List.take_of_length_le (length_raw_line_le line)
        have hk := (strrchr_split h2).2.2
        rw [hlen] at hk
        have ht : List.take k (List.take h (List.take d (raw_line line))) =
            List.take k (List.take d (raw_line line)) := by
          rw [List.take_take]; congr 1; omega
        simp only [strncpy] at hfull
        simp only [hfull, strncpy, ht]

/-- A raw line that splits as `n-v-r.a` (no hyphen in `v`, `r`; no dot in `a`)
parses, and the fields are the truncated pieces. -/
theorem parse_package_of_split (line n v r a : CStr)
    (hraw : raw_line line = n ++ '-' :: v ++ '-' :: r ++ '.' :: a)
    (ha : '.' ∉ a) (hr : '-' ∉ r) (hv : '-' ∉ v) :
    parse_package line =
      some { name := n.take (MAX_NAME_LENGTH - 1),
             version := (v ++ '-' :: r).take (MAX_VERSION_LENGTH - 1),
             arch := a.take (MAX_ARCH_LENGTH - 1),
             full_line := raw_line line } := by
  rw [parse_package_eq, hraw, strrchr_append ha]
  simp only [List.take_left', List.drop_left']
  rw [strrchr_append hr]
  simp only [List.take_left']
  rw [strrchr_append hv]
  have e1 : List.take n.length (n ++ '-' :: v ++ '-' :: r) = n := by
    rw [List.append_assoc, List.take_left' rfl]
  have e2 : List.drop (n.length + 1) (n ++ '-' :: v ++ '-' :: r) = v ++ '-' :: r := by
    have : n ++ '-' :: v ++ '-' :: r = (n ++ ['-']) ++ (v ++ '-' :: r) := by simp
    rw [this]
    exact List.drop_left' (by simp)
  have e3 : List.drop ((n ++ '-' :: v ++ '-' :: r).length + 1)
      (n ++ '-' :: v ++ '-' :: r ++ '.' :: a) = a := by
    have : n ++ '-' :: v ++ '-' :: r ++ '.' :: a = (n ++ '-' :: v ++ '-' :: r ++ ['.']) ++ a := by
      simp
    rw [this]
    exact List.drop_left' (by simp only [List.length_append, List.length_cons,
      List.length_nil])
  simp only [e1, e2, e3]

/-- A successful parse comes from a split `n-v-r.a` of the raw line at its last
dot and the last two hyphens before it. -/
theorem parse_package_some_split {line : CStr} {pkg : Package}
    (h : parse_package line = some pkg) :
    ∃ n v r a, raw_line line = n ++ '-' :: v ++ '-' :: r ++ '.' :: a ∧
      '.' ∉ a ∧ '-' ∉ r ∧ '-' ∉ v ∧
      pkg = { name := n.take (MAX_NAME_LENGTH - 1),
              version := (v ++ '-' :: r).take (MAX_VERSION_LENGTH - 1),
              arch := a.take (MAX_ARCH_LENGTH - 1),
              full_line := raw_line line } := by
  have h0 := h
  rw [parse_package_eq] at h
  cases hd : strrchr (raw_line line) '.' with
  | none => simp [hd] at h
  | some d =>
    cases hh : strrchr ((raw_line line).take d) '-' with
    | none => simp [hd, hh] at h
    | some i =>
      cases hh2 : strrchr (((raw_line line).take d).take i) '-' with
      | none => simp [hd, hh, hh2] at h
      | some j =>
        obtain ⟨s1, m1, -⟩ := strrchr_split hd
        obtain ⟨s2, m2, -⟩ := strrchr_split hh
        obtain ⟨s3, m3, -⟩ := strrchr_split hh2
        have hraw : raw_line line =
            List.take j (List.take i (List.take d (raw_line line))) ++
              '-' :: List.drop (j + 1) (List.take i (List.take d (raw_line line))) ++
              '-' :: List.drop (i + 1) (List.take d (raw_line line)) ++
              '.' :: List.drop (d + 1) (raw_line line) := by
          rw [← s3, ← s2, ← s1]
        refine ⟨_, _, _, _, hraw, m1, m2, m3, ?_⟩
        have := parse_package_of_split line _ _ _ _ hraw m1 m2 m3
        rw [h0] at this
        exact Option.some.inj this

theorem raw_line_eq_self {line : CStr} (hlen : line.length ≤ MAX_LINE_LENGTH - 1)
    (hnl : '\n' ∉ line) : raw_line line = line := by
  unfold raw_line
  rw [List.take_of_length_le hlen, takeWhile_ne_of_not_mem hnl]

/-! ## C1: round trip of `parse_package` -/

/-- C1 (counterexample): the identifier built from name `foo`, version `1`,
release `1` and arch `a.b` (no hyphen in version, release or arch) parses, but
the arch that comes back is `b` and the version is `1-1.a`: the last dot of
the whole line decides where arch starts. -/
theorem parse_round_trip_fails_on_dotted_arch :
    '-' ∉ "1".toList ∧ '-' ∉ "a.b".toList ∧
    parse_package (mk_identifier "foo".toList "1".toList "1".toList "a.b".toList) =
      some { name := "foo".toList, version := "1-1.a".toList, arch := "b".toList,
             full_line := "foo-1-1.a.b".toList } ∧
    "b".toList ≠ "a.b".toList ∧ "1-1.a".toList ≠ "1".toList ++ '-' :: "1".toList := by
  decide

/-- C1 (amended): round trip.  When version and release contain no hyphen, arch
contains neither hyphen nor dot, no part contains a newline, and the parts fit
the field buffers (name at most 255 bytes, version-release at most 127, arch
at most 31), parsing `name-version-release.arch` succeeds and gives back the
name, `version-release` and arch, and stores the whole identifier as the full
line. -/
theorem parse_round_trip (name version release arch : CStr)
    (hv : '-' ∉ version) (hr : '-' ∉ release) (_ha : '-' ∉ arch) (hdot : '.' ∉ arch)
    (hn1 : '\n' ∉ name) (hn2 : '\n' ∉ version) (hn3 : '\n' ∉ release) (hn4 : '\n' ∉ arch)
    (hl1 : name.length ≤ MAX_NAME_LENGTH - 1)
    (hl2 : (version ++ '-' :: release).length ≤ MAX_VERSION_LENGTH - 1)
    (hl3 : arch.length ≤ MAX_ARCH_LENGTH - 1) :
    parse_package (mk_identifier name version release arch) =
      some { name := name, version := version ++ '-' :: release, arch := arch,
             full_line := mk_identifier name version release arch } := by
  have hlen : (mk_identifier name version release arch).length ≤ MAX_LINE_LENGTH - 1 := by
    simp only [mk_identifier, List.length_append, List.length_cons, MAX_LINE_LENGTH,
      MAX_NAME_LENGTH, MAX_VERSION_LENGTH, MAX_ARCH_LENGTH] at *
    omega
  have hnl : '\n' ∉ mk_identifier name version release arch := by
    simp only [mk_identifier, List.mem_append, List.mem_cons, not_or]
    refine ⟨⟨⟨hn1, by decide, hn2⟩, by decide, hn3⟩, by decide, hn4⟩
  have hraw := raw_line_eq_self hlen hnl
  have h := parse_package_of_split (mk_identifier name version release arch)
    name version release arch hraw hdot hr hv
  rw [h, hraw, List.take_of_length_le hl1, List.take_of_length_le hl2,
    List.take_of_length_le hl3]

/-- C1 (witness): `foo-bar-1.0-1.x86_64` gives name `foo-bar`, version `1.0-1`
and arch `x86_64`. -/
theorem parse_round_trip_witness :
    parse_package "foo-bar-1.0-1.x86_64".toList =
      some { name := "foo-bar".toList, version := "1.0-1".toList, arch := "x86_64".toList,
             full_line := "foo-bar-1.0-1.x86_64".toList } :=
  parse_round_trip "foo-bar".toList "1.0".toList "1".toList "x86_64".toList
    (by decide) (by decide) (by decide) (by decide) (by decide) (by decide) (by decide)
    (by decide) (by decide) (by decide) (by decide)

/-! ## C2: the fields of a parsed line -/

/-- C2 (counterexample): on `a-1-2.` followed by 32 `x` the parse succeeds, and
the stored arch is 31 `x`, not everything after the last dot. -/
theorem parse_package_arch_cut :
    parse_package ("a-1-2.".toList ++ List.replicate 32 'x') =
      some { name := "a".toList, version := "1-2".toList, arch := List.replicate 31 'x',
             full_line := "a-1-2.".toList ++ List.replicate 32 'x' } ∧
    afterLast '.' (raw_line ("a-1-2.".toList ++ List.replicate 32 'x')) = List.replicate 32 'x' ∧
    List.replicate 31 'x' ≠ List.replicate 32 'x' := by
  decide

/-- C2 (amended): on every line where `parse_package` succeeds, with the raw
line being the line cut to 511 bytes and at its newline: arch is the first 31
bytes of everything after the last dot of the raw line, version is the first
127 bytes of everything after the second-to-last hyphen of the text before
that dot, name is the first 255 bytes of everything before that hyphen, the
stored full line is the raw line, and the raw line is the three untruncated
pieces joined by `-` and `.`. -/
theorem parse_package_fields (line : CStr) (pkg : Package)
    (h : parse_package line = some pkg) :
    pkg.arch = (afterLast '.' (raw_line line)).take (MAX_ARCH_LENGTH - 1) ∧
    pkg.version = (afterSecondLast '-' (beforeLast '.' (raw_line line))).take
      (MAX_VERSION_LENGTH - 1) ∧
    pkg.name = (beforeSecondLast '-' (beforeLast '.' (raw_line line))).take
      (MAX_NAME_LENGTH - 1) ∧
    pkg.full_line = raw_line line ∧
    raw_line line = beforeSecondLast '-' (beforeLast '.' (raw_line line)) ++
      '-' :: afterSecondLast '-' (beforeLast '.' (raw_line line)) ++
      '.' :: afterLast '.' (raw_line line) := by
  obtain ⟨n, v, r, a, hraw, ha, hr, hv, rfl⟩ := parse_package_some_split h
  have e1 : afterLast '.' (raw_line line) = a := by rw [hraw]; exact afterLast_append ha
  have e2 : beforeLast '.' (raw_line line) = n ++ '-' :: v ++ '-' :: r := by
    rw [hraw]; exact beforeLast_append ha
  have e3 : afterLast '-' (n ++ '-' :: v ++ '-' :: r) = r := afterLast_append hr
  have e4 : beforeLast '-' (n ++ '-' :: v ++ '-' :: r) = n ++ '-' :: v := beforeLast_append hr
  have e5 : afterLast '-' (n ++ '-' :: v) = v := afterLast_append hv
  have e6 : beforeLast '-' (n ++ '-' :: v) = n := beforeLast_append hv
  simp only [afterSecondLast, beforeSecondLast, e1, e2, e3, e4, e5, e6]
  refine ⟨trivial, trivial, trivial, trivial, ?_⟩
  rw [hraw]
  simp

/-- C2 (witness): `my-tool-1.2-3.noarch` parses to name `my-tool`, version
`1.2-3` and arch `noarch`, and these are the pieces the theorem describes. -/
theorem parse_package_fields_witness :
    parse_package "my-tool-1.2-3.noarch".toList =
      some { name := "my-tool".toList, version := "1.2-3".toList, arch := "noarch".toList,
             full_line := "my-tool-1.2-3.noarch".toList } ∧
    "noarch".toList = (afterLast '.' (raw_line "my-tool-1.2-3.noarch".toList)).take
      (MAX_ARCH_LENGTH - 1) ∧
    "1.2-3".toList = (afterSecondLast '-' (beforeLast '.'
      (raw_line "my-tool-1.2-3.noarch".toList))).take (MAX_VERSION_LENGTH - 1) ∧
    "my-tool".toList = (beforeSecondLast '-' (beforeLast '.'
      (raw_line "my-tool-1.2-3.noarch".toList))).take (MAX_NAME_LENGTH - 1) :=
  have h := parse_package_fields "my-tool-1.2-3.noarch".toList
    { name := "my-tool".toList, version := "1.2-3".toList, arch := "noarch".toList,
      full_line := "my-tool-1.2-3.noarch".toList } (by decide)
  ⟨by decide, h.1, h.2.1, h.2.2.1⟩

/-! ## C3: when `parse_package` fails -/

/-- For a line that fits the line buffer (every line `fgets` delivers), the raw
line is the line without its newline. -/
theorem raw_line_of_short {line : CStr} (hlen : line.length ≤ MAX_LINE_LENGTH - 1) :
    raw_line line = line.takeWhile fun x => x != '\n' := by
  unfold raw_line
  rw [List.take_of_length_le hlen]

/-- C3: `parse_package` returns failure exactly when the newline-stripped line
(`raw_line`: the line without its newline, within the 511 bytes of the line
buffer, see `raw_line_of_short`) has no dot, or the text before its last dot
has fewer than two hyphens; in every other case it returns success. -/
theorem parse_package_fails_iff (line : CStr) :
    parse_package line = none ↔
      '.' ∉ raw_line line ∨ (beforeLast '.' (raw_line line)).count '-' < 2 := by
  rw [parse_package_eq]
  cases hd : strrchr (raw_line line) '.' with
  | none => simp [strrchr_eq_none.1 hd]
  | some d =>
    obtain ⟨s1, m1, -⟩ := strrchr_split hd
    have hmem : '.' ∈ raw_line line := by
      rw [s1]; simp
    have hb : beforeLast '.' (raw_line line) = (raw_line line).take d := by
      conv_lhs => rw [s1]
      exact beforeLast_append m1
    rw [hb]
    simp only [hmem, not_true_eq_false, false_or]
    cases hh : strrchr ((raw_line line).take d) '-' with
    | none =>
      have := strrchr_eq_none.1 hh
      simp [List.count_eq_zero_of_not_mem this]
    | some i =>
      dsimp only
      obtain ⟨s2, m2, -⟩ := strrchr_split hh
      have hc : ((raw_line line).take d).count '-' =
          (((raw_line line).take d).take i).count '-' + 1 := by
        conv_lhs => rw [s2]
        rw [List.count_append, List.count_cons_self, List.count_eq_zero_of_not_mem m2]
      cases hh2 : strrchr (((raw_line line).take d).take i) '-' with
      | none =>
        have := strrchr_eq_none.1 hh2
        simp only [true_iff]
        rw [hc, List.count_eq_zero_of_not_mem this]
        decide
      | some j =>
        have hm : '-' ∈ ((raw_line line).take d).take i := by
          by_contra hc2
          rw [strrchr_eq_none.2 hc2] at hh2
          cases hh2
        have := List.count_pos_iff.2 hm
        simp only [reduceCtorEq, false_iff, not_lt]
        omega

/-! ## Theorems: the search functions and one iteration of the matcher -/

theorem strcmp_eq_zero {a b : CStr} : strcmp a b = 0 ↔ a = b := by
  induction a generalizing b with
  | nil => cases b <;> simp [strcmp]
  | cons x xs ih =>
    cases b with
    | nil => simp [strcmp]
    | cons y ys =>
      by_cases h : x = y
      · simp [strcmp, h, ih]
      · by_cases h2 : x < y <;> simp [strcmp, h, h2]

theorem packages_equal_iff {a b : Package} :
    packages_equal a b = true ↔ a.name = b.name ∧ a.version = b.version ∧ a.arch = b.arch := by
  simp [packages_equal, strcmp_eq_zero, and_assoc]

theorem find_range_eq_none {p : Nat → Bool} {n : Nat} :
    (List.range n).find? p = none ↔ ∀ i, i < n → p i = false := by
  simp [List.find?_eq_none]

theorem find_range_eq_some {p : Nat → Bool} {n j : Nat} :
    (List.range n).find? p = some j ↔ j < n ∧ p j = true ∧ ∀ i, i < j → p i = false := by
  induction n generalizing j with
  | zero => simp
  | succ n ih =>
    rw [List.range_succ, List.find?_append]
    cases hf : (List.range n).find? p with
    | some k =>
      have hk := (@ih k).1 hf
      simp only [Option.or, Option.some.injEq]
      constructor
      · rintro rfl
        exact ⟨by omega, hk.2.1, hk.2.2⟩
      · rintro ⟨h1, h2, h3⟩
        rcases Nat.lt_trichotomy k j with h | h | h
        · have := h3 k h; rw [hk.2.1] at this; cases this
        · exact h
        · have := hk.2.2 j h; rw [h2] at this; cases this
    | none =>
      have hn := find_range_eq_none.1 hf
      simp only [Option.or]
      by_cases hp : p n = true
      · simp only [List.find?_cons, hp, Option.some.injEq]
        constructor
        · rintro rfl
          exact ⟨by omega, hp, hn⟩
        · rintro ⟨h1, h2, h3⟩
          rcases Nat.lt_trichotomy n j with h | h | h
          · omega
          · exact h
          · have := hn j h; rw [h2] at this; cases this
      · simp only [Bool.not_eq_true] at hp
        simp only [List.find?_cons, hp, List.find?_nil, reduceCtorEq, false_iff, not_and]
        intro h1 h2
        have : j < n ∨ j = n := by omega
        rcases this with h | h
        · have := hn j h; rw [h2] at this; cases this
        · subst h; rw [hp] at h2; cases h2

theorem getD_set_true (pr : List Bool) (j i : Nat) :
    (pr.set j true).getD i false = (pr.getD i false || (decide (i = j) && decide (j < pr.length))) := by
  simp only [List.getD_eq_getElem?_getD, List.getElem?_set]
  by_cases h : j = i
  · subst h
    by_cases h2 : j < pr.length
    · simp [h2]
    · simp [h2]
      have : pr.length ≤ j := by omega
      simp [List.getElem?_eq_none this]
  · have : ¬ i = j := fun e => h e.symm
    simp [h, this]

theorem not_and_eq_true (x y : Bool) : ((!x && y) = true) ↔ (x = false ∧ y = true) := by
  cases x <;> cases y <;> decide

theorem not_and_eq_false (x y : Bool) : ((!x && y) = false) ↔ ¬ (x = false ∧ y = true) := by
  cases x <;> cases y <;> decide

theorem find_exact_package_eq_some {B : List Package} {n : Nat} {a : Package} {pr : List Bool}
    {j : Nat} : find_exact_package B n a pr = some j ↔
      j < n ∧ pr.getD j false = false ∧ packages_equal (B.getD j default) a = true ∧
      ∀ i, i < j → ¬ (pr.getD i false = false ∧ packages_equal (B.getD i default) a = true) := by
  unfold find_exact_package
  rw [find_range_eq_some]
  simp only [not_and_eq_true, not_and_eq_false, and_assoc]

theorem find_exact_package_eq_none {B : List Package} {n : Nat} {a : Package} {pr : List Bool} :
    find_exact_package B n a pr = none ↔
      ∀ i, i < n → ¬ (pr.getD i false = false ∧ packages_equal (B.getD i default) a = true) := by
  unfold find_exact_package
  rw [find_range_eq_none]
  simp only [not_and_eq_false]

theorem strcmp_beq_zero (a b : CStr) : ((strcmp a b == 0) = true) ↔ a = b := by
  rw [beq_iff_eq, strcmp_eq_zero]

theorem find_package_by_name_eq_some {B : List Package} {n : Nat} {nm : CStr} {pr : List Bool}
    {j : Nat} : find_package_by_name B n nm pr = some j ↔
      j < n ∧ pr.getD j false = false ∧ (B.getD j default).name = nm ∧
      ∀ i, i < j → ¬ (pr.getD i false = false ∧ (B.getD i default).name = nm) := by
  unfold find_package_by_name
  rw [find_range_eq_some]
  simp only [not_and_eq_true, not_and_eq_false, and_assoc, strcmp_beq_zero]

theorem find_package_by_name_eq_none {B : List Package} {n : Nat} {nm : CStr} {pr : List Bool} :
    find_package_by_name B n nm pr = none ↔
      ∀ i, i < n → ¬ (pr.getD i false = false ∧ (B.getD i default).name = nm) := by
  unfold find_package_by_name
  rw [find_range_eq_none]
  simp only [not_and_eq_false, strcmp_beq_zero]

/-- The three ways one iteration of the loop over A can go. -/
theorem match_iteration_cases (B : List Package) (n : Nat) (a : Package) (pr : List Bool) :
    (∃ j, find_exact_package B n a pr = some j ∧
      match_iteration B n a pr = (pr.set j true, some j,
        { package_a := a.full_line, package_b := (B.getD j default).full_line,
          status := '=', sort_key := a.name })) ∨
    (find_exact_package B n a pr = none ∧ ∃ j, find_package_by_name B n a.name pr = some j ∧
      match_iteration B n a pr = (pr.set j true, some j,
        { package_a := a.full_line, package_b := (B.getD j default).full_line,
          status := '|', sort_key := a.name })) ∨
    (find_exact_package B n a pr = none ∧ find_package_by_name B n a.name pr = none ∧
      match_iteration B n a pr = (pr, none,
        { package_a := a.full_line, package_b := [], status := '<', sort_key := a.name })) := by
  unfold match_iteration
  cases h1 : find_exact_package B n a pr with
  | some j => exact Or.inl ⟨j, rfl, rfl⟩
  | none =>
    cases h2 : find_package_by_name B n a.name pr with
    | some j => exact Or.inr (Or.inl ⟨rfl, j, rfl, rfl⟩)
    | none => exact Or.inr (Or.inr ⟨rfl, rfl, rfl⟩)

theorem countP_range_remove (p : Nat → Bool) (j : Nat) (n : Nat) :
    (List.range n).countP (fun i => p i && !decide (i = j)) +
      (if j < n ∧ p j = true then 1 else 0) = (List.range n).countP p := by
  induction n with
  | zero => simp
  | succ n ih =>
    rw [List.range_succ, List.countP_append, List.countP_append, ← ih]
    simp only [List.countP_singleton]
    by_cases hnj : n = j
    · subst hnj
      by_cases hp : p n = true <;> simp [hp]
    · have h2 : (j < n + 1) ↔ j < n := by omega
      simp only [hnj, decide_False, Bool.not_false, Bool.and_true, h2]
      omega

theorem unconsumed_set (q : Nat → Bool) (pr : List Bool) (j : Nat) (hj : j < pr.length)
    (hf : pr.getD j false = false) (n : Nat) :
    unconsumed q n (pr.set j true) + (if j < n ∧ q j = true then 1 else 0) =
      unconsumed q n pr := by
  unfold unconsumed
  have hfun : (fun i => !(pr.set j true).getD i false && q i) =
      fun i => (!pr.getD i false && q i) && !decide (i = j) := by
    funext i
    rw [getD_set_true]
    simp only [hj, decide_True, Bool.and_true]
    cases pr.getD i false <;> cases q i <;> cases decide (i = j) <;> rfl
  rw [hfun, ← countP_range_remove (fun i => !pr.getD i false && q i) j n]
  simp only [hf, Bool.not_false, Bool.true_and]

/-- What one iteration does, for a `processed_b` array of the length of B. -/
theorem match_iteration_spec (B : List Package) (n : Nat) (a : Package) (pr : List Bool) :
    (match_iteration B n a pr).2.2.package_a = a.full_line ∧
    (match_iteration B n a pr).2.2.sort_key = a.name ∧
    (((match_iteration B n a pr).2.1 = none ∧ (match_iteration B n a pr).2.2.status = '<' ∧
        (match_iteration B n a pr).2.2.package_b = [] ∧ (match_iteration B n a pr).1 = pr ∧
        ∀ i, i < n → pr.getD i false = false → (B.getD i default).name ≠ a.name) ∨
      ∃ j, (match_iteration B n a pr).2.1 = some j ∧ j < n ∧ pr.getD j false = false ∧
        (match_iteration B n a pr).1 = pr.set j true ∧
        (match_iteration B n a pr).2.2.package_b = (B.getD j default).full_line ∧
        (B.getD j default).name = a.name ∧
        (((match_iteration B n a pr).2.2.status = '=' ∧
            packages_equal (B.getD j default) a = true) ∨
          ((match_iteration B n a pr).2.2.status = '|' ∧
            packages_equal (B.getD j default) a = false))) := by
  rcases match_iteration_cases B n a pr with ⟨j, hf, he⟩ | ⟨hf, j, hg, he⟩ | ⟨hf, hg, he⟩
  · rw [he]
    obtain ⟨h1, h2, h3, -⟩ := find_exact_package_eq_some.1 hf
    exact ⟨rfl, rfl, Or.inr ⟨j, rfl, h1, h2, rfl, rfl, (packages_equal_iff.1 h3).1,
      Or.inl ⟨rfl, h3⟩⟩⟩
  · rw [he]
    obtain ⟨h1, h2, h3, -⟩ := find_package_by_name_eq_some.1 hg
    have h4 := find_exact_package_eq_none.1 hf j h1
    have h5 : packages_equal (B.getD j default) a = false := by
      cases h : packages_equal (B.getD j default) a
      · rfl
      · exact absurd ⟨h2, h⟩ h4
    exact ⟨rfl, rfl, Or.inr ⟨j, rfl, h1, h2, rfl, rfl, h3, Or.inr ⟨rfl, h5⟩⟩⟩
  · rw [he]
    refine ⟨rfl, rfl, Or.inl ⟨rfl, rfl, rfl, rfl, ?_⟩⟩
    intro i hi hp hn
    exact find_package_by_name_eq_none.1 hg i hi ⟨hp, hn⟩

theorem match_iteration_length (B : List Package) (n : Nat) (a : Package) (pr : List Bool) :
    (match_iteration B n a pr).1.length = pr.length := by
  rcases (match_iteration_spec B n a pr).2.2 with ⟨-, -, -, h, -⟩ | ⟨j, -, -, -, h, -⟩
  · rw [h]
  · rw [h, List.length_set]

theorem match_loop_a_length (B : List Package) (n : Nat) :
    ∀ (A : List Package) (pr : List Bool), (match_loop_a B n A pr).1.length = pr.length := by
  intro A
  induction A with
  | nil => intro pr; rfl
  | cons a rest ih =>
    intro pr
    simp only [match_loop_a]
    rw [ih, match_iteration_length]

theorem match_loop_a_results_length (B : List Package) (n : Nat) :
    ∀ (A : List Package) (pr : List Bool), (match_loop_a B n A pr).2.length = A.length := by
  intro A
  induction A with
  | nil => intro pr; rfl
  | cons a rest ih =>
    intro pr
    simp only [match_loop_a, List.length_cons, ih]

/-- Every element of the trace of the loop over A is the outcome of one
iteration, for an entry of A and a `processed_b` array of the right length. -/
theorem match_loop_a_mem (B : List Package) (n : Nat) :
    ∀ (A : List Package) (pr : List Bool), pr.length = n →
      ∀ x, x ∈ (match_loop_a B n A pr).2 →
        ∃ a, a ∈ A ∧ ∃ pr' : List Bool, pr'.length = n ∧ x = (match_iteration B n a pr').2 := by
  intro A
  induction A with
  | nil => intro pr _ x hx; simp [match_loop_a] at hx
  | cons a rest ih =>
    intro pr hpr x hx
    simp only [match_loop_a, List.mem_cons] at hx
    rcases hx with rfl | hx
    · exact ⟨a, List.mem_cons_self _ _, pr, hpr, rfl⟩
    · obtain ⟨a', ha', pr', hpr', hx'⟩ :=
        ih _ (by rw [match_iteration_length, hpr]) x hx
      exact ⟨a', List.mem_cons_of_mem _ ha', pr', hpr', hx'⟩

/-- Each B entry found by an iteration lowers the number of unconsumed entries
satisfying `q` by one when it satisfies `q`. -/
theorem match_loop_a_unconsumed (B : List Package) (n : Nat) (q : Nat → Bool) :
    ∀ (A : List Package) (pr : List Bool), pr.length = n →
      unconsumed q n (match_loop_a B n A pr).1 +
        (match_loop_a B n A pr).2.countP (fun x => x.1.any q) = unconsumed q n pr := by
  intro A
  induction A with
  | nil => intro pr _; simp [match_loop_a]
  | cons a rest ih =>
    intro pr hpr
    simp only [match_loop_a, List.countP_cons]
    have hlen : (match_iteration B n a pr).1.length = n := by
      rw [match_iteration_length, hpr]
    have := ih _ hlen
    rcases (match_iteration_spec B n a pr).2.2 with ⟨h1, -, -, h, -⟩ | ⟨j, h1, h2, h3, h, -⟩
    · rw [h] at this ⊢
      rw [h1]
      simpa using this
    · rw [h] at this ⊢
      have hs := unconsumed_set q pr j (by omega) h3 n
      rw [h1]
      simp only [Option.any_some]
      simp only [h2, true_and] at hs
      omega

theorem unconsumed_replicate (q : Nat → Bool) (n : Nat) :
    unconsumed q n (List.replicate n false) = (List.range n).countP q := by
  unfold unconsumed
  apply List.countP_congr
  intro i hi
  have : (List.replicate n false).getD i false = false := by
    rw [List.getD_eq_getElem?_getD, List.getElem?_replicate]
    split <;> rfl
  rw [this]
  rfl

theorem filterMap_ite_eq_map_filter {α β : Type} (p : α → Bool) (f : α → β) (l : List α) :
    l.filterMap (fun i => if p i = true then some (f i) else none) = (l.filter p).map f := by
  induction l with
  | nil => rfl
  | cons x xs ih =>
    by_cases h : p x = true
    · simp [List.filterMap_cons, List.filter_cons, h, ih]
    · simp [List.filterMap_cons, List.filter_cons, h, ih]

theorem match_loop_b_eq (B : List Package) (n : Nat) (pr : List Bool) :
    match_loop_b B n pr =
      ((List.range n).filter fun i => !pr.getD i false).map fun i =>
        (some i, { package_a := [], package_b := (B.getD i default).full_line,
                   status := '>', sort_key := (B.getD i default).name }) := by
  unfold match_loop_b
  exact filterMap_ite_eq_map_filter _ _ _

theorem match_loop_b_length (B : List Package) (n : Nat) (pr : List Bool) :
    (match_loop_b B n pr).length = unconsumed (fun _ => true) n pr := by
  rw [match_loop_b_eq, List.length_map, ← List.countP_eq_length_filter]
  unfold unconsumed
  simp only [Bool.and_true]

theorem match_loop_b_status (B : List Package) (n : Nat) (pr : List Bool) :
    ∀ x, x ∈ match_loop_b B n pr → x.2.status = '>' := by
  intro x hx
  rw [match_loop_b_eq, List.mem_map] at hx
  obtain ⟨i, -, rfl⟩ := hx
  rfl

/-! ## Theorems: the two matching loops; C4 -/

/-- The status of a result of the loop over A tells whether a B entry was found. -/
theorem match_loop_a_status (B : List Package) (n : Nat) (A : List Package) (pr : List Bool)
    (hpr : pr.length = n) :
    ∀ x, x ∈ (match_loop_a B n A pr).2 →
      (x.1 = none ∧ x.2.status = '<') ∨
        ∃ j, x.1 = some j ∧ j < n ∧ (x.2.status = '=' ∨ x.2.status = '|') := by
  intro x hx
  obtain ⟨a, -, pr', -, rfl⟩ := match_loop_a_mem B n A pr hpr x hx
  rcases (match_iteration_spec B n a pr').2.2 with ⟨h1, h2, -⟩ | ⟨j, h1, h2, -, -, -, -, h3⟩
  · exact Or.inl ⟨h1, h2⟩
  · exact Or.inr ⟨j, h1, h2, h3.imp And.left And.left⟩

theorem count_status_append (c : Char) (l₁ l₂ : List ComparisonResult) :
    count_status c (l₁ ++ l₂) = count_status c l₁ + count_status c l₂ := by
  simp [count_status, List.countP_append]

theorem count_status_of_all {c : Char} {l : List ComparisonResult}
    (h : ∀ r, r ∈ l → r.status = c) : count_status c l = l.length := by
  unfold count_status
  rw [List.countP_eq_length]
  intro r hr
  simp [h r hr]

theorem count_status_of_none {c : Char} {l : List ComparisonResult}
    (h : ∀ r, r ∈ l → r.status ≠ c) : count_status c l = 0 := by
  unfold count_status
  rw [List.countP_eq_zero]
  intro r hr
  simpa using h r hr

/-- Counting statuses in a list of results of the loop over A. -/
theorem count_status_loop_a (l : List (Option Nat × ComparisonResult))
    (h : ∀ x, x ∈ l → (x.1 = none ∧ x.2.status = '<') ∨
      ∃ j, x.1 = some j ∧ (x.2.status = '=' ∨ x.2.status = '|')) :
    count_status '=' (l.map Prod.snd) + count_status '|' (l.map Prod.snd) =
        l.countP (fun x => x.1.any fun _ => true) ∧
      count_status '=' (l.map Prod.snd) + count_status '|' (l.map Prod.snd) +
        count_status '<' (l.map Prod.snd) = l.length ∧
      count_status '>' (l.map Prod.snd) = 0 := by
  induction l with
  | nil => simp [count_status]
  | cons x xs ih =>
    obtain ⟨i1, i2, i3⟩ := ih fun y hy => h y (List.mem_cons_of_mem _ hy)
    simp only [count_status, List.countP_map, List.countP_cons, List.length_cons,
      Function.comp_apply] at i1 i2 i3 ⊢
    have e1 : ('<' == '=') = false := by decide
    have e2 : ('<' == '|') = false := by decide
    have e3 : ('<' == '>') = false := by decide
    have e4 : ('=' == '|') = false := by decide
    have e5 : ('=' == '<') = false := by decide
    have e6 : ('=' == '>') = false := by decide
    have e7 : ('|' == '=') = false := by decide
    have e8 : ('|' == '<') = false := by decide
    have e9 : ('|' == '>') = false := by decide
    rcases h x (List.mem_cons_self _ _) with ⟨h1, h2⟩ | ⟨j, h1, h2 | h2⟩
    · simp only [h1, h2, Option.any_none, e1, e2, e3, beq_self_eq_true, if_true, Bool.false_eq_true,
        if_false]
      omega
    · simp only [h1, h2, Option.any_some, e4, e5, e6, beq_self_eq_true, if_true, Bool.false_eq_true,
        if_false]
      omega
    · simp only [h1, h2, Option.any_some, e7, e8, e9, beq_self_eq_true, if_true, Bool.false_eq_true,
        if_false]
      omega

theorem match_results_eq (A B : List Package) :
    match_results A B =
      (match_loop_a B B.length A (List.replicate B.length false)).2.map Prod.snd ++
        (match_loop_b B B.length
          (match_loop_a B B.length A (List.replicate B.length false)).1).map Prod.snd := by
  simp [match_results, match_trace]

/-- The A-side partition holds exactly the results of the loop over A. -/
theorem a_results_match_results (A B : List Package) :
    a_results (match_results A B) =
      (match_loop_a B B.length A (List.replicate B.length false)).2.map Prod.snd := by
  rw [match_results_eq, a_results, List.filter_append]
  have h1 : List.filter (fun r => r.status != '>')
      ((match_loop_a B B.length A (List.replicate B.length false)).2.map Prod.snd) =
      (match_loop_a B B.length A (List.replicate B.length false)).2.map Prod.snd := by
    rw [List.filter_eq_self]
    intro r hr
    obtain ⟨x, hx, rfl⟩ := List.mem_map.1 hr
    rcases match_loop_a_status B B.length A _ (List.length_replicate _ _) x hx with
      ⟨-, h⟩ | ⟨j, -, -, h | h⟩ <;> rw [h] <;> decide
  have h2 : List.filter (fun r => r.status != '>') ((match_loop_b B B.length
      (match_loop_a B B.length A (List.replicate B.length false)).1).map Prod.snd) = [] := by
    rw [List.filter_eq_nil_iff]
    intro r hr
    obtain ⟨x, hx, rfl⟩ := List.mem_map.1 hr
    rw [match_loop_b_status B B.length _ x hx]
    decide
  rw [h1, h2, List.append_nil]

/-- The B-only partition holds exactly the results of the loop over B. -/
theorem b_only_results_match_results (A B : List Package) :
    b_only_results (match_results A B) =
      (match_loop_b B B.length
        (match_loop_a B B.length A (List.replicate B.length false)).1).map Prod.snd := by
  rw [match_results_eq, b_only_results, List.filter_append]
  have h1 : List.filter (fun r => r.status == '>')
      ((match_loop_a B B.length A (List.replicate B.length false)).2.map Prod.snd) = [] := by
    rw [List.filter_eq_nil_iff]
    intro r hr
    obtain ⟨x, hx, rfl⟩ := List.mem_map.1 hr
    rcases match_loop_a_status B B.length A _ (List.length_replicate _ _) x hx with
      ⟨-, h⟩ | ⟨j, -, -, h | h⟩ <;> rw [h] <;> decide
  have h2 : List.filter (fun r => r.status == '>') ((match_loop_b B B.length
      (match_loop_a B B.length A (List.replicate B.length false)).1).map Prod.snd) =
      (match_loop_b B B.length
        (match_loop_a B B.length A (List.replicate B.length false)).1).map Prod.snd := by
    rw [List.filter_eq_self]
    intro r hr
    obtain ⟨x, hx, rfl⟩ := List.mem_map.1 hr
    rw [match_loop_b_status B B.length _ x hx]
    decide
  rw [h1, h2, List.nil_append]

/-- C4: conservation.  The A-side partition has exactly |A| results, the
Identical, Differs and OnlyInA results add up to |A|, and the number of
OnlyInB results is |B| minus the number of Identical and Differs results
(which is at most |B|). -/
theorem conservation (A B : List Package) :
    (a_results (match_results A B)).length = A.length ∧
    count_status '=' (match_results A B) + count_status '|' (match_results A B) +
      count_status '<' (match_results A B) = A.length ∧
    count_status '>' (match_results A B) =
      B.length - (count_status '=' (match_results A B) + count_status '|' (match_results A B)) ∧
    count_status '=' (match_results A B) + count_status '|' (match_results A B) ≤ B.length := by
  have hrep : (List.replicate B.length false).length = B.length := List.length_replicate _ _
  have hA := match_loop_a_status B B.length A _ hrep
  have hB := match_loop_b_status B B.length
    (match_loop_a B B.length A (List.replicate B.length false)).1
  obtain ⟨c1, c2, c3⟩ := count_status_loop_a _ fun x hx =>
    (hA x hx).imp id fun ⟨j, h1, _, h3⟩ => ⟨j, h1, h3⟩
  have hu := match_loop_a_unconsumed B B.length (fun _ => true) A _ hrep
  rw [unconsumed_replicate, ← match_loop_b_length B] at hu
  have hBs : ∀ r, r ∈ (match_loop_b B B.length
      (match_loop_a B B.length A (List.replicate B.length false)).1).map Prod.snd →
      r.status = '>' := by
    intro r hr
    obtain ⟨x, hx, rfl⟩ := List.mem_map.1 hr
    exact hB x hx
  have b1 := count_status_of_all hBs
  have b2 : count_status '=' ((match_loop_b B B.length
      (match_loop_a B B.length A (List.replicate B.length false)).1).map Prod.snd) = 0 :=
    count_status_of_none fun r hr => by rw [hBs r hr]; decide
  have b3 : count_status '|' ((match_loop_b B B.length
      (match_loop_a B B.length A (List.replicate B.length false)).1).map Prod.snd) = 0 :=
    count_status_of_none fun r hr => by rw [hBs r hr]; decide
  have b4 : count_status '<' ((match_loop_b B B.length
      (match_loop_a B B.length A (List.replicate B.length false)).1).map Prod.snd) = 0 :=
    count_status_of_none fun r hr => by rw [hBs r hr]; decide
  have hlen := match_loop_a_results_length B B.length A (List.replicate B.length false)
  have hall : (List.range B.length).countP (fun _ => true) = B.length := by
    simp
  rw [a_results_match_results]
  simp only [match_results_eq, count_status_append, b1, b2, b3, b4, List.length_map] at *
  omega

/-! ## Theorems: the B indices of the trace; C5 -/

/-- The B indices found by the loop over A: they are pairwise distinct, each was
unconsumed before the loop, and the final `processed_b` marks exactly the
entries marked before together with the found ones. -/
theorem match_loop_a_found (B : List Package) (n : Nat) :
    ∀ (A : List Package) (pr : List Bool), pr.length = n →
      ((match_loop_a B n A pr).2.filterMap Prod.fst).Nodup ∧
      (∀ j, j ∈ (match_loop_a B n A pr).2.filterMap Prod.fst →
        j < n ∧ pr.getD j false = false) ∧
      ∀ i, (match_loop_a B n A pr).1.getD i false = true ↔
        (pr.getD i false = true ∨ i ∈ (match_loop_a B n A pr).2.filterMap Prod.fst) := by
  intro A
  induction A with
  | nil => intro pr _; simp [match_loop_a]
  | cons a rest ih =>
    intro pr hpr
    have hlen : (match_iteration B n a pr).1.length = n := by
      rw [match_iteration_length, hpr]
    have hspec := (match_iteration_spec B n a pr).2.2
    have ih' := ih _ hlen
    simp only [match_loop_a]
    generalize match_iteration B n a pr = it at hspec ih' hlen
    obtain ⟨pr1, f, r⟩ := it
    obtain ⟨i1, i2, i3⟩ := ih'
    simp only at hspec i1 i2 i3 hlen ⊢
    rcases hspec with ⟨h1, -, -, h, -⟩ | ⟨j, h1, h2, h3, h, -⟩
    · subst h1 h
      rw [List.filterMap_cons]
      exact ⟨i1, i2, i3⟩
    · subst h1 h
      rw [List.filterMap_cons]
      simp only
      have hjl : j < pr.length := by omega
      refine ⟨?_, ?_, ?_⟩
      · refine List.nodup_cons.2 ⟨?_, i1⟩
        intro hj
        have := (i2 j hj).2
        rw [getD_set_true] at this
        simp [h3, hjl] at this
      · intro k hk
        rcases List.mem_cons.1 hk with rfl | hk
        · exact ⟨h2, h3⟩
        · have := i2 k hk
          rw [getD_set_true] at this
          refine ⟨this.1, ?_⟩
          have h4 := this.2
          simp only [Bool.or_eq_false_iff] at h4
          exact h4.1
      · intro i
        rw [i3 i, getD_set_true]
        simp only [hjl, decide_True, Bool.and_true, List.mem_cons, Bool.or_eq_true,
          decide_eq_true_eq, or_assoc]

theorem filterMap_fst_match_loop_b (B : List Package) (n : Nat) (pr : List Bool) :
    (match_loop_b B n pr).filterMap Prod.fst =
      (List.range n).filter fun i => !pr.getD i false := by
  rw [match_loop_b_eq, List.filterMap_map]
  exact List.filterMap_some _

/-- The B indices of the whole trace are a rearrangement of `0, ..., |B| - 1`. -/
theorem match_trace_indices_perm (A B : List Package) :
    ((match_trace A B).filterMap Prod.fst).Perm (List.range B.length) := by
  obtain ⟨f1, f2, f3⟩ := match_loop_a_found B B.length A (List.replicate B.length false)
    (List.length_replicate _ _)
  have hrep : ∀ i, (List.replicate B.length false).getD i false = false := by
    intro i
    rw [List.getD_eq_getElem?_getD, List.getElem?_replicate]
    split <;> rfl
  unfold match_trace
  simp only [List.filterMap_append, filterMap_fst_match_loop_b]
  rw [List.perm_ext_iff_of_nodup]
  · intro i
    have f3' : ∀ i, (match_loop_a B B.length A (List.replicate B.length false)).1.getD i false
        = false ↔ i ∉ (match_loop_a B B.length A (List.replicate B.length false)).2.filterMap
          Prod.fst := by
      intro i
      rw [← Bool.not_eq_true, f3 i, hrep]
      simp
    simp only [List.mem_append, List.mem_filter, List.mem_range, Bool.not_eq_true', f3']
    constructor
    · rintro (h | h)
      · exact (f2 i h).1
      · exact h.1
    · intro h
      by_cases hm : i ∈ (match_loop_a B B.length A (List.replicate B.length false)).2.filterMap
          Prod.fst
      · exact Or.inl hm
      · exact Or.inr ⟨h, hm⟩
  · rw [List.nodup_append]
    refine ⟨f1, (List.nodup_range _).filter _, ?_⟩
    intro i h1 h2
    simp only [List.mem_filter, Bool.not_eq_true'] at h2
    have := h2.2
    rw [← Bool.not_eq_true, f3 i, hrep] at this
    exact this (Or.inr h1)
  · exact List.nodup_range _

theorem mem_match_trace {A B : List Package} {x : Option Nat × ComparisonResult}
    (hx : x ∈ match_trace A B) :
    (∃ a, a ∈ A ∧ ∃ pr : List Bool, pr.length = B.length ∧
        x = (match_iteration B B.length a pr).2) ∨
      ∃ i, i < B.length ∧
        x = (some i, { package_a := [], package_b := (B.getD i default).full_line,
                       status := '>', sort_key := (B.getD i default).name }) := by
  unfold match_trace at hx
  rcases List.mem_append.1 hx with h | h
  · exact Or.inl (match_loop_a_mem B B.length A _ (List.length_replicate _ _) x h)
  · rw [match_loop_b_eq, List.mem_map] at h
    obtain ⟨i, hi, rfl⟩ := h
    exact Or.inr ⟨i, List.mem_range.1 (List.mem_filter.1 hi).1, rfl⟩

/-- C5: no double consumption.  The B indices chosen by the Identical and
Differs results are pairwise distinct; the B indices of all results (the
chosen ones and those of the OnlyInB results) are a rearrangement of
`0, ..., |B| - 1`, so every B entry is referred to by exactly one result; a
result with B index `j` shows the full line of `B[j]` and is Identical,
Differs or OnlyInB, and a result without B index is OnlyInA. -/
theorem no_double_consumption (A B : List Package) :
    (((match_trace A B).filter fun x => x.2.status == '=' || x.2.status == '|').filterMap
      Prod.fst).Nodup ∧
    ((match_trace A B).filterMap Prod.fst).Perm (List.range B.length) ∧
    (∀ x, x ∈ match_trace A B → ∀ j, x.1 = some j →
      j < B.length ∧ x.2.package_b = (B.getD j default).full_line ∧
        (x.2.status = '=' ∨ x.2.status = '|' ∨ x.2.status = '>')) ∧
    (∀ x, x ∈ match_trace A B → x.1 = none → x.2.status = '<') := by
  have hperm := match_trace_indices_perm A B
  refine ⟨?_, hperm, ?_, ?_⟩
  · exact ((hperm.nodup_iff).2 (List.nodup_range _)).sublist
      ((List.filter_sublist _).filterMap _)
  · intro x hx j hj
    rcases mem_match_trace hx with ⟨a, -, pr, -, rfl⟩ | ⟨i, hi, rfl⟩
    · rcases (match_iteration_spec B B.length a pr).2.2 with
        ⟨h1, -⟩ | ⟨k, h1, h2, -, -, h3, -, h4⟩
      · rw [h1] at hj; cases hj
      · rw [h1] at hj
        cases hj
        exact ⟨h2, h3, h4.elim (fun h => Or.inl h.1) fun h => Or.inr (Or.inl h.1)⟩
    · cases hj
      exact ⟨hi, rfl, Or.inr (Or.inr rfl)⟩
  · intro x hx hn
    rcases mem_match_trace hx with ⟨a, -, pr, -, rfl⟩ | ⟨i, hi, rfl⟩
    · rcases (match_iteration_spec B B.length a pr).2.2 with ⟨-, h2, -⟩ | ⟨k, h1, -⟩
      · exact h2
      · rw [h1] at hn; cases hn
    · cases hn

/-! ## C6: the meaning of a Differs row -/

theorem getD_mem {B : List Package} {j : Nat} (h : j < B.length) : B.getD j default ∈ B := by
  rw [List.getD_eq_getElem _ _ h]
  exact List.getElem_mem _

theorem packages_equal_comm (a b : Package) : packages_equal a b = packages_equal b a := by
  rw [Bool.eq_iff_iff, packages_equal_iff, packages_equal_iff]
  constructor <;> rintro ⟨h1, h2, h3⟩ <;> exact ⟨h1.symm, h2.symm, h3.symm⟩

/-- C6: a Differs row.  Every result with status `|` shows the full lines of an
entry `a` of A and an entry `b` of B with the same name that are not equal
under `packages_equal`, that is, that differ in version or arch; its sort key
is that name. -/
theorem differs_row_meaning (A B : List Package) (r : ComparisonResult)
    (hr : r ∈ match_results A B) (hs : r.status = '|') :
    ∃ a, a ∈ A ∧ ∃ b, b ∈ B ∧
      r = { package_a := a.full_line, package_b := b.full_line, status := '|',
            sort_key := a.name } ∧
      a.name = b.name ∧ packages_equal a b = false ∧
      (a.version ≠ b.version ∨ a.arch ≠ b.arch) := by
  obtain ⟨x, hx, rfl⟩ := List.mem_map.1 hr
  rcases mem_match_trace hx with ⟨a, ha, pr, -, rfl⟩ | ⟨i, hi, rfl⟩
  · obtain ⟨s1, s2, s3⟩ := match_iteration_spec B B.length a pr
    rcases s3 with ⟨-, h2, -⟩ | ⟨k, -, h2, -, -, h3, h4, h5⟩
    · rw [h2] at hs; exact absurd hs (by decide)
    · rcases h5 with ⟨h5, -⟩ | ⟨h5, h6⟩
      · rw [h5] at hs; exact absurd hs (by decide)
      · refine ⟨a, ha, B.getD k default, getD_mem h2, ?_, h4.symm, ?_, ?_⟩
        · generalize (match_iteration B B.length a pr).2.2 = r at s1 s2 h3 h5
          cases r
          simp only at s1 s2 h3 h5
          rw [s1, s2, h3, h5]
        · rw [packages_equal_comm]; exact h6
        · by_contra hc
          simp only [not_or, not_not] at hc
          have := packages_equal_iff.2 ⟨h4, hc.1.symm, hc.2.symm⟩
          rw [h6] at this
          cases this
  · exact absurd (show '>' = '|' from hs) (by decide)

/-- C6 (witness): A = [`foo-1.0-1.x86_64`], B = [`foo-2.0-1.x86_64`] gives exactly
one row, a Differs row. -/
theorem differs_row_meaning_witness :
    parse_package "foo-1.0-1.x86_64".toList =
      some { name := "foo".toList, version := "1.0-1".toList, arch := "x86_64".toList,
             full_line := "foo-1.0-1.x86_64".toList } ∧
    parse_package "foo-2.0-1.x86_64".toList =
      some { name := "foo".toList, version := "2.0-1".toList, arch := "x86_64".toList,
             full_line := "foo-2.0-1.x86_64".toList } ∧
    match_results
        [{ name := "foo".toList, version := "1.0-1".toList, arch := "x86_64".toList,
           full_line := "foo-1.0-1.x86_64".toList }]
        [{ name := "foo".toList, version := "2.0-1".toList, arch := "x86_64".toList,
           full_line := "foo-2.0-1.x86_64".toList }] =
      [{ package_a := "foo-1.0-1.x86_64".toList, package_b := "foo-2.0-1.x86_64".toList,
         status := '|', sort_key := "foo".toList }] ∧
    ∃ a, a ∈ [({ name := "foo".toList, version := "1.0-1".toList, arch := "x86_64".toList,
                 full_line := "foo-1.0-1.x86_64".toList } : Package)] ∧
      ∃ b, b ∈ [({ name := "foo".toList, version := "2.0-1".toList, arch := "x86_64".toList,
                   full_line := "foo-2.0-1.x86_64".toList } : Package)] ∧
      ({ package_a := "foo-1.0-1.x86_64".toList, package_b := "foo-2.0-1.x86_64".toList,
         status := '|', sort_key := "foo".toList } : ComparisonResult) =
        { package_a := a.full_line, package_b := b.full_line, status := '|',
          sort_key := a.name } ∧
      a.name = b.name ∧ packages_equal a b = false ∧
      (a.version ≠ b.version ∨ a.arch ≠ b.arch) :=
  ⟨by decide, by decide, by decide,
    differs_row_meaning _ _ _ (by decide) rfl⟩

/-! ## C7: matching a list against itself -/

theorem packages_equal_self (a : Package) : packages_equal a a = true :=
  packages_equal_iff.2 ⟨rfl, rfl, rfl⟩

theorem getD_replicate_append (k m i : Nat) :
    (List.replicate k true ++ List.replicate m false).getD i false = decide (i < k) := by
  rw [List.getD_eq_getElem?_getD]
  by_cases h : i < k
  · rw [List.getElem?_append_left (by simpa using h), List.getElem?_replicate]
    simp [h]
  · rw [List.getElem?_append_right (by simpa using h), List.getElem?_replicate]
    simp only [h, decide_False]
    split <;> rfl

theorem set_replicate_append (k m : Nat) :
    (List.replicate k true ++ List.replicate (m + 1) false).set k true =
      List.replicate (k + 1) true ++ List.replicate m false := by
  induction k with
  | zero => simp [List.replicate_succ]
  | succ k ih =>
    rw [List.replicate_succ, List.cons_append, List.set_cons_succ, ih]
    simp [List.replicate_succ]

/-- The loop over A when B is A itself: the entry at index `i` finds `B[i]`. -/
theorem match_loop_a_self (B : List Package) (n : Nat) :
    ∀ (suf pre : List Package), B = pre ++ suf → n = B.length →
      (match_loop_a B n suf
          (List.replicate pre.length true ++ List.replicate suf.length false)).1 =
        List.replicate n true ∧
      (match_loop_a B n suf
          (List.replicate pre.length true ++ List.replicate suf.length false)).2.map Prod.snd =
        suf.map fun a => { package_a := a.full_line, package_b := a.full_line,
                           status := '=', sort_key := a.name } := by
  intro suf
  induction suf with
  | nil =>
    intro pre hB hn
    subst hB
    simp [match_loop_a, hn]
  | cons a rest ih =>
    intro pre hB hn
    have hget : B.getD pre.length default = a := by
      rw [hB, List.getD_eq_getElem?_getD, List.getElem?_append_right (le_refl _)]
      simp
    have hfind : find_exact_package B n a
        (List.replicate pre.length true ++ List.replicate (a :: rest).length false) =
        some pre.length := by
      rw [find_exact_package_eq_some]
      refine ⟨?_, ?_, ?_, ?_⟩
      · rw [hn, hB]; simp
      · rw [getD_replicate_append]; simp
      · rw [hget]; exact packages_equal_self a
      · intro i hi h
        rw [getD_replicate_append] at h
        simp [hi] at h
    have hit : match_iteration B n a
        (List.replicate pre.length true ++ List.replicate (a :: rest).length false) =
        ((List.replicate pre.length true ++ List.replicate (a :: rest).length false).set
            pre.length true, some pre.length,
          { package_a := a.full_line, package_b := a.full_line, status := '=',
            sort_key := a.name }) := by
      unfold match_iteration
      rw [hfind]
      simp only [hget]
    have hih := ih (pre ++ [a]) (by rw [hB]; simp) hn
    simp only [List.length_append, List.length_singleton] at hih
    simp only [List.length_cons] at hit
    simp only [match_loop_a, List.length_cons, hit, set_replicate_append, List.map_cons]
    exact ⟨hih.1, by rw [hih.2]⟩

theorem match_loop_b_all_processed (B : List Package) (n : Nat) :
    match_loop_b B n (List.replicate n true) = [] := by
  rw [match_loop_b_eq, List.map_eq_nil_iff, List.filter_eq_nil_iff]
  intro i hi
  have := getD_replicate_append n 0 i
  simp only [List.replicate_zero, List.append_nil] at this
  rw [this]
  simpa using List.mem_range.1 hi

/-- C7: self-comparison.  Matching a list against itself gives, for each entry
in order, one Identical row whose two columns are that entry's full line, and
nothing else: |A| rows, no Differs, OnlyInA or OnlyInB row. -/
theorem self_comparison (A : List Package) :
    match_results A A =
        A.map (fun a => { package_a := a.full_line, package_b := a.full_line,
                          status := '=', sort_key := a.name }) ∧
      (match_results A A).length = A.length ∧
      (∀ r, r ∈ match_results A A → r.status = '=' ∧ r.package_a = r.package_b) ∧
      count_status '=' (match_results A A) = A.length ∧
      count_status '|' (match_results A A) = 0 ∧
      count_status '<' (match_results A A) = 0 ∧
      count_status '>' (match_results A A) = 0 := by
  have h := match_loop_a_self A A.length A [] rfl rfl
  simp only [List.length_nil, List.replicate_zero, List.nil_append] at h
  have hm : match_results A A =
      A.map (fun a => { package_a := a.full_line, package_b := a.full_line,
                        status := '=', sort_key := a.name }) := by
    rw [match_results_eq, h.1, h.2, match_loop_b_all_processed]
    simp
  have hall : ∀ r, r ∈ match_results A A → r.status = '=' ∧ r.package_a = r.package_b := by
    intro r hr
    rw [hm] at hr
    obtain ⟨a, -, rfl⟩ := List.mem_map.1 hr
    exact ⟨rfl, rfl⟩
  have hlen : (match_results A A).length = A.length := by rw [hm, List.length_map]
  refine ⟨hm, hlen, hall, ?_, ?_, ?_, ?_⟩
  · rw [count_status_of_all fun r hr => (hall r hr).1, hlen]
  · exact count_status_of_none fun r hr => by rw [(hall r hr).1]; decide
  · exact count_status_of_none fun r hr => by rw [(hall r hr).1]; decide
  · exact count_status_of_none fun r hr => by rw [(hall r hr).1]; decide

/-! ## C9: the multiset of sort keys -/

theorem map_getD_range (B : List Package) :
    (List.range B.length).map (fun i => B.getD i default) = B := by
  apply List.ext_getElem
  · simp
  · intro i h1 h2
    simp only [List.getElem_map, List.getElem_range]
    exact List.getD_eq_getElem _ _ h2

theorem countP_range_getD (B : List Package) (p : Package → Bool) :
    (List.range B.length).countP (fun i => p (B.getD i default)) = B.countP p := by
  conv_rhs => rw [← map_getD_range B]
  rw [List.countP_map]
  rfl

theorem match_loop_a_sort_keys (B : List Package) (n : Nat) :
    ∀ (A : List Package) (pr : List Bool),
      (match_loop_a B n A pr).2.map (fun x => x.2.sort_key) = A.map Package.name := by
  intro A
  induction A with
  | nil => intro pr; rfl
  | cons a rest ih =>
    intro pr
    simp only [match_loop_a, List.map_cons, ih, (match_iteration_spec B n a pr).2.1]

/-- The loop over A consumes, among the unconsumed B entries named `nm`, one
for every A entry named `nm`, as long as there are any. -/
theorem match_loop_a_unconsumed_name (B : List Package) (n : Nat) (nm : CStr) :
    ∀ (A : List Package) (pr : List Bool), pr.length = n →
      unconsumed (fun i => decide ((B.getD i default).name = nm)) n (match_loop_a B n A pr).1 =
        unconsumed (fun i => decide ((B.getD i default).name = nm)) n pr -
          count_name nm A := by
  intro A
  induction A with
  | nil => intro pr _; simp [match_loop_a, count_name]
  | cons a rest ih =>
    intro pr hpr
    have hlen : (match_iteration B n a pr).1.length = n := by
      rw [match_iteration_length, hpr]
    have hih := ih _ hlen
    simp only [count_name, List.countP_cons] at hih ⊢
    simp only [match_loop_a]
    rw [hih]
    rcases (match_iteration_spec B n a pr).2.2 with ⟨-, -, -, h, h5⟩ | ⟨j, -, h2, h3, h, -, h4, -⟩
    · rw [h]
      by_cases hnm : a.name = nm
      · have hz : unconsumed (fun i => decide ((B.getD i default).name = nm)) n pr = 0 := by
          unfold unconsumed
          rw [List.countP_eq_zero]
          intro i hi
          rw [not_and_eq_true]
          rintro ⟨h6, h7⟩
          exact h5 i (List.mem_range.1 hi) h6 ((of_decide_eq_true h7).trans hnm.symm)
        rw [hz]
        simp
      · simp [hnm]
    · rw [h]
      have hs := unconsumed_set (fun i => decide ((B.getD i default).name = nm)) pr j
        (by omega) h3 n
      simp only [h2, true_and, h4, decide_eq_true_eq] at hs
      by_cases hnm : a.name = nm
      · simp only [hnm, if_true, decide_True] at hs ⊢
        omega
      · simp only [hnm, if_false] at hs
        simp only [hnm, decide_False, Bool.false_eq_true, if_false]
        omega

theorem match_loop_b_count_sort_key (B : List Package) (n : Nat) (pr : List Bool) (nm : CStr) :
    count_sort_key nm ((match_loop_b B n pr).map Prod.snd) =
      unconsumed (fun i => decide ((B.getD i default).name = nm)) n pr := by
  rw [match_loop_b_eq, List.map_map, count_sort_key, List.countP_map, List.countP_filter]
  unfold unconsumed
  apply List.countP_congr
  intro i _
  simp only [Function.comp_apply, Bool.and_eq_true, decide_eq_true_eq]
  exact and_comm

theorem match_loop_a_count_sort_key (B : List Package) (n : Nat) (nm : CStr) :
    ∀ (A : List Package) (pr : List Bool),
      count_sort_key nm ((match_loop_a B n A pr).2.map Prod.snd) = count_name nm A := by
  intro A
  induction A with
  | nil => intro pr; rfl
  | cons a rest ih =>
    intro pr
    have := ih (match_iteration B n a pr).1
    simp only [count_sort_key, count_name] at this ⊢
    simp only [match_loop_a, List.map_cons, List.countP_cons, this,
      (match_iteration_spec B n a pr).2.1]

/-- The number of result rows with sort key `nm`. -/
theorem count_sort_key_match_results (A B : List Package) (nm : CStr) :
    count_sort_key nm (match_results A B) = max (count_name nm A) (count_name nm B) := by
  have h1 := match_loop_a_count_sort_key B B.length nm A (List.replicate B.length false)
  have h2 := match_loop_b_count_sort_key B B.length
    (match_loop_a B B.length A (List.replicate B.length false)).1 nm
  have h3 := match_loop_a_unconsumed_name B B.length nm A (List.replicate B.length false)
    (List.length_replicate _ _)
  rw [unconsumed_replicate, countP_range_getD B (fun b => decide (b.name = nm))] at h3
  rw [match_results_eq]
  unfold count_sort_key at h1 h2 ⊢
  rw [List.countP_append, h1, h2, h3]
  unfold count_name
  omega

/-- C9: swap symmetry of sort keys.  For every name the number of result rows
with that sort key is the larger of the number of A entries and the number of
B entries with that name; hence matching (A, B) and matching (B, A) give the
same multiset of sort keys. -/
theorem sort_key_symmetry (A B : List Package) :
    (∀ nm : CStr, count_sort_key nm (match_results A B) =
      max (count_name nm A) (count_name nm B)) ∧
    ((match_results A B).map fun r => r.sort_key).Perm
      ((match_results B A).map fun r => r.sort_key) := by
  refine ⟨count_sort_key_match_results A B, ?_⟩
  rw [List.perm_iff_count]
  intro nm
  refine Eq.trans (?_ : _ = count_sort_key nm (match_results A B))
    (Eq.trans ?_ (?_ : count_sort_key nm (match_results B A) = _))
  · unfold List.count
    rw [List.countP_map, count_sort_key]
    apply List.countP_congr
    intro r _
    simp
  · rw [count_sort_key_match_results, count_sort_key_match_results, max_comm]
  · unfold List.count
    rw [List.countP_map, count_sort_key]
    apply List.countP_congr
    intro r _
    simp

/-! ## C8: exchanging the two lists -/

theorem name_index_unique {B : List Package} (hB : (B.map Package.name).Nodup) {i j : Nat}
    (hi : i < B.length) (hj : j < B.length)
    (h : (B.getD i default).name = (B.getD j default).name) : i = j := by
  rw [List.getD_eq_getElem _ _ hi, List.getD_eq_getElem _ _ hj] at h
  have hi' : i < (B.map Package.name).length := by simpa using hi
  have hj' : j < (B.map Package.name).length := by simpa using hj
  apply (@List.Nodup.getElem_inj_iff _ _ hB i hi' j hj').1
  simpa using h

theorem find_name_of_nodup {B : List Package} (hB : (B.map Package.name).Nodup) {b : Package}
    (hb : b ∈ B) {nm : CStr} (hnm : b.name = nm) :
    B.find? (fun x => decide (x.name = nm)) = some b := by
  cases hf : B.find? (fun x => decide (x.name = nm)) with
  | none =>
    rw [List.find?_eq_none] at hf
    exact absurd (by simpa using hnm) (hf b hb)
  | some b' =>
    have h1 := List.find?_some hf
    have h2 := List.mem_of_find?_eq_some hf
    simp only [decide_eq_true_eq] at h1
    rw [List.inj_on_of_nodup_map hB h2 hb (h1.trans hnm.symm)]

theorem find_name_none {B : List Package} {nm : CStr} (h : ∀ b, b ∈ B → b.name ≠ nm) :
    B.find? (fun x => decide (x.name = nm)) = none := by
  rw [List.find?_eq_none]
  intro b hb
  simpa using h b hb

/-- The loop over A when no name is repeated in B and in the A entries still to
be visited, and no consumed B entry has the name of one of these A entries:
each A entry gets the row `row_of_a`, and the B entries consumed at the end
are those consumed before and those named like one of the A entries. -/
theorem match_loop_a_of_nodup (B : List Package) (n : Nat) (hn : n = B.length)
    (hB : (B.map Package.name).Nodup) :
    ∀ (suf : List Package) (pr : List Bool), pr.length = n → (suf.map Package.name).Nodup →
      (∀ i, i < n → pr.getD i false = true →
        (B.getD i default).name ∉ suf.map Package.name) →
      (match_loop_a B n suf pr).2.map Prod.snd = suf.map (row_of_a B) ∧
      ∀ i, i < n → ((match_loop_a B n suf pr).1.getD i false = true ↔
        (pr.getD i false = true ∨ (B.getD i default).name ∈ suf.map Package.name)) := by
  intro suf
  induction suf with
  | nil => intro pr _ _ _; simp [match_loop_a]
  | cons a rest ih =>
    intro pr hpr hnd hinv
    have hlen : (match_iteration B n a pr).1.length = n := by
      rw [match_iteration_length, hpr]
    rw [List.map_cons, List.nodup_cons] at hnd
    obtain ⟨s1, s2, s3⟩ := match_iteration_spec B n a pr
    have ih' := ih (match_iteration B n a pr).1 hlen hnd.2
    simp only [match_loop_a, List.map_cons]
    generalize match_iteration B n a pr = it at s1 s2 s3 ih' hlen
    obtain ⟨pr1, f, r⟩ := it
    simp only at s1 s2 s3 ih' hlen ⊢
    rcases s3 with ⟨-, h2, h3, h, h5⟩ | ⟨j, -, h2, h3, h, h4, h5, h6⟩
    · subst h
      have hnone : ∀ b, b ∈ B → b.name ≠ a.name := by
        intro b hb
        obtain ⟨i, hi, rfl⟩ := List.getElem_of_mem hb
        rw [← List.getD_eq_getElem _ default hi]
        have hi' : i < n := by omega
        cases hp : pr1.getD i false with
        | false => exact h5 i hi' hp
        | true =>
          intro he
          exact hinv i hi' hp (he ▸ List.mem_cons_self _ _)
      obtain ⟨i1, i2⟩ := ih' fun i hi hp hm => hinv i hi hp (List.mem_cons_of_mem _ hm)
      refine ⟨?_, ?_⟩
      · rw [i1]
        congr 1
        unfold row_of_a
        rw [find_name_none hnone]
        cases r
        simp only at s1 s2 h2 h3
        rw [s1, s2, h2, h3]
      · intro i hi
        rw [i2 i hi]
        have : (B.getD i default).name ≠ a.name :=
          hnone _ (getD_mem (by omega))
        constructor
        · rintro (h | h)
          · exact Or.inl h
          · exact Or.inr (List.mem_cons_of_mem _ h)
        · rintro (h | h)
          · exact Or.inl h
          · rcases List.mem_cons.1 h with h | h
            · exact absurd h this
            · exact Or.inr h
    · subst h
      have hjl : j < pr.length := by omega
      have hjB : j < B.length := by omega
      have hset : ∀ i, i < n → (pr.set j true).getD i false = true →
          (B.getD i default).name ∉ rest.map Package.name := by
        intro i hi hp
        rw [getD_set_true] at hp
        simp only [hjl, decide_True, Bool.and_true, Bool.or_eq_true, decide_eq_true_eq] at hp
        rcases hp with hp | rfl
        · intro hm
          exact hinv i hi hp (List.mem_cons_of_mem _ hm)
        · rw [h5]
          exact hnd.1
      obtain ⟨i1, i2⟩ := ih' hset
      refine ⟨?_, ?_⟩
      · rw [i1]
        congr 1
        unfold row_of_a
        rw [find_name_of_nodup hB (getD_mem hjB) h5]
        cases r
        simp only at s1 s2 h4 h6
        rw [s1, s2, h4]
        rcases h6 with ⟨h6, h7⟩ | ⟨h6, h7⟩
        · simp only [h6, h7, if_true]
        · simp only [h6, h7, Bool.false_eq_true, if_false]
      · intro i hi
        rw [i2 i hi, getD_set_true]
        simp only [hjl, decide_True, Bool.and_true, Bool.or_eq_true, decide_eq_true_eq,
          List.map_cons, List.mem_cons, or_assoc]
        constructor
        · rintro (h | rfl | h)
          · exact Or.inl h
          · exact Or.inr (Or.inl h5)
          · exact Or.inr (Or.inr h)
        · rintro (h | h | h)
          · exact Or.inl h
          · exact Or.inr (Or.inl (name_index_unique hB (by omega) hjB (h.trans h5.symm)))
          · exact Or.inr (Or.inr h)

/-- The results of the matcher when no name is repeated within A or within B. -/
theorem match_results_of_nodup (A B : List Package) (hA : (A.map Package.name).Nodup)
    (hB : (B.map Package.name).Nodup) :
    match_results A B =
      A.map (row_of_a B) ++
        (B.filter fun b => decide (b.name ∉ A.map Package.name)).map row_of_b := by
  obtain ⟨h1, h2⟩ := match_loop_a_of_nodup B B.length rfl hB A (List.replicate B.length false)
    (List.length_replicate _ _) hA (by
      intro i _ hp
      have := getD_replicate_append 0 B.length i
      simp only [List.replicate_zero, List.nil_append] at this
      rw [this] at hp
      simp at hp)
  rw [match_results_eq, h1, match_loop_b_eq, List.map_map]
  congr 1
  conv_rhs => rw [← map_getD_range B, List.filter_map, List.map_map]
  have hf : (List.range B.length).filter (fun i =>
      !(match_loop_a B B.length A (List.replicate B.length false)).1.getD i false) =
      (List.range B.length).filter
        ((fun b : Package => decide (b.name ∉ A.map Package.name)) ∘
          fun i => B.getD i default) := by
    apply List.filter_congr
    intro i hi
    have h3 := h2 i (List.mem_range.1 hi)
    have h0 := getD_replicate_append 0 B.length i
    simp only [List.replicate_zero, List.nil_append] at h0
    rw [h0] at h3
    simp only [not_lt_zero', decide_False, Bool.false_eq_true, false_or] at h3
    rw [Bool.eq_iff_iff]
    simp only [Bool.not_eq_true', Function.comp_apply, decide_eq_true_eq, ← h3,
      Bool.not_eq_true]
  rw [hf]
  rfl

theorem swap_row_swap_row (r : ComparisonResult) : swap_row (swap_row r) = r := by
  cases r with
  | mk pa pb st k =>
    simp only [swap_row, swap_status, ComparisonResult.mk.injEq, true_and]
    by_cases h1 : st = '<'
    · subst h1; decide
    · by_cases h2 : st = '>'
      · subst h2; decide
      · simp [h1, h2]

theorem sort_key_row_of_a (B : List Package) (a : Package) : (row_of_a B a).sort_key = a.name := by
  unfold row_of_a
  cases B.find? fun b => decide (b.name = a.name) <;> rfl

theorem match_results_nodup_of_nodup (A B : List Package) (hA : (A.map Package.name).Nodup)
    (hB : (B.map Package.name).Nodup) : (match_results A B).Nodup := by
  apply List.Nodup.of_map fun r => r.sort_key
  rw [match_results_of_nodup A B hA hB, List.map_append, List.map_map, List.map_map]
  have e1 : (fun r : ComparisonResult => r.sort_key) ∘ row_of_a B = Package.name := by
    funext a
    exact sort_key_row_of_a B a
  have e2 : (fun r : ComparisonResult => r.sort_key) ∘ row_of_b = Package.name := rfl
  rw [e1, e2, List.nodup_append]
  refine ⟨hA, hB.sublist ((List.filter_sublist _).map _), ?_⟩
  intro nm h1 h2
  obtain ⟨b, hb, rfl⟩ := List.mem_map.1 h2
  have := (List.mem_filter.1 hb).2
  simp only [decide_eq_true_eq] at this
  exact this h1

/-- With names not repeated, every row of matching (B, A) is, with columns and
`<`, `>` exchanged, a row of matching (A, B). -/
theorem swap_row_mem_match_results (A B : List Package) (hA : (A.map Package.name).Nodup)
    (hB : (B.map Package.name).Nodup) (r : ComparisonResult) (hr : r ∈ match_results B A) :
    swap_row r ∈ match_results A B := by
  rw [match_results_of_nodup B A hB hA] at hr
  rw [match_results_of_nodup A B hA hB]
  rcases List.mem_append.1 hr with h | h
  · obtain ⟨b, hb, rfl⟩ := List.mem_map.1 h
    cases hf : A.find? (fun x => decide (x.name = b.name)) with
    | none =>
      apply List.mem_append_right
      refine List.mem_map.2 ⟨b, List.mem_filter.2 ⟨hb, ?_⟩, ?_⟩
      · rw [List.find?_eq_none] at hf
        simp only [decide_eq_true_eq]
        intro hm
        obtain ⟨a, ha, hab⟩ := List.mem_map.1 hm
        exact hf a ha (by simpa using hab)
      · unfold row_of_a
        rw [hf]
        rfl
    | some a =>
      have h1 := List.find?_some hf
      have ha := List.mem_of_find?_eq_some hf
      simp only [decide_eq_true_eq] at h1
      apply List.mem_append_left
      refine List.mem_map.2 ⟨a, ha, ?_⟩
      unfold row_of_a
      rw [hf, find_name_of_nodup hB hb h1.symm]
      simp only [swap_row, packages_equal_comm b a, h1]
      cases packages_equal a b <;> rfl
  · obtain ⟨a, ha, rfl⟩ := List.mem_map.1 h
    have hn := (List.mem_filter.1 ha).2
    simp only [decide_eq_true_eq] at hn
    apply List.mem_append_left
    refine List.mem_map.2 ⟨a, (List.mem_filter.1 ha).1, ?_⟩
    unfold row_of_a
    rw [find_name_none fun b hb he => hn (List.mem_map.2 ⟨b, hb, he⟩)]
    rfl

/-- C8 (counterexample): with A = [`foo-1.0-1.x86_64`, `foo-2.0-1.x86_64`] and
B = [`foo-2.0-1.x86_64`], matching (A, B) gives a Differs row and an OnlyInA
row, matching (B, A) gives an Identical row and an OnlyInB row: the second is
not the first with the columns and `<`, `>` exchanged. -/
theorem swap_symmetry_fails_on_repeated_name :
    match_results
        [{ name := "foo".toList, version := "1.0-1".toList, arch := "x86_64".toList,
           full_line := "foo-1.0-1.x86_64".toList },
         { name := "foo".toList, version := "2.0-1".toList, arch := "x86_64".toList,
           full_line := "foo-2.0-1.x86_64".toList }]
        [{ name := "foo".toList, version := "2.0-1".toList, arch := "x86_64".toList,
           full_line := "foo-2.0-1.x86_64".toList }] =
      [{ package_a := "foo-1.0-1.x86_64".toList, package_b := "foo-2.0-1.x86_64".toList,
         status := '|', sort_key := "foo".toList },
       { package_a := "foo-2.0-1.x86_64".toList, package_b := [],
         status := '<', sort_key := "foo".toList }] ∧
    match_results
        [{ name := "foo".toList, version := "2.0-1".toList, arch := "x86_64".toList,
           full_line := "foo-2.0-1.x86_64".toList }]
        [{ name := "foo".toList, version := "1.0-1".toList, arch := "x86_64".toList,
           full_line := "foo-1.0-1.x86_64".toList },
         { name := "foo".toList, version := "2.0-1".toList, arch := "x86_64".toList,
           full_line := "foo-2.0-1.x86_64".toList }] =
      [{ package_a := "foo-2.0-1.x86_64".toList, package_b := "foo-2.0-1.x86_64".toList,
         status := '=', sort_key := "foo".toList },
       { package_a := [], package_b := "foo-1.0-1.x86_64".toList,
         status := '>', sort_key := "foo".toList }] ∧
    ¬ (match_results
        [{ name := "foo".toList, version := "2.0-1".toList, arch := "x86_64".toList,
           full_line := "foo-2.0-1.x86_64".toList }]
        [{ name := "foo".toList, version := "1.0-1".toList, arch := "x86_64".toList,
           full_line := "foo-1.0-1.x86_64".toList },
         { name := "foo".toList, version := "2.0-1".toList, arch := "x86_64".toList,
           full_line := "foo-2.0-1.x86_64".toList }]).Perm
      ((match_results
        [{ name := "foo".toList, version := "1.0-1".toList, arch := "x86_64".toList,
           full_line := "foo-1.0-1.x86_64".toList },
         { name := "foo".toList, version := "2.0-1".toList, arch := "x86_64".toList,
           full_line := "foo-2.0-1.x86_64".toList }]
        [{ name := "foo".toList, version := "2.0-1".toList, arch := "x86_64".toList,
           full_line := "foo-2.0-1.x86_64".toList }]).map swap_row) := by
  decide

/-- C8 (amended): swap symmetry of rows when no two entries of A share a name
and no two entries of B share a name: the results of matching (B, A) are, as a
multiset, the results of matching (A, B) with every `<` row turned into a `>`
row and vice versa and the two columns of every row exchanged. -/
theorem swap_symmetry_of_rows (A B : List Package) (hA : (A.map Package.name).Nodup)
    (hB : (B.map Package.name).Nodup) :
    (match_results B A).Perm ((match_results A B).map swap_row) := by
  have inj : Function.Injective swap_row := fun r s h => by
    rw [← swap_row_swap_row r, h, swap_row_swap_row]
  rw [List.perm_ext_iff_of_nodup (match_results_nodup_of_nodup B A hB hA)
    ((match_results_nodup_of_nodup A B hA hB).map inj)]
  intro r
  constructor
  · intro hr
    exact List.mem_map.2 ⟨swap_row r, swap_row_mem_match_results A B hA hB r hr,
      swap_row_swap_row r⟩
  · intro hr
    obtain ⟨s, hs, rfl⟩ := List.mem_map.1 hr
    exact swap_row_mem_match_results B A hB hA s hs

/-- C8 (witness): A = [`foo-1.0-1.x86_64`, `bar-1.0-1.noarch`] and
B = [`foo-2.0-1.x86_64`, `baz-3-1.i686`]. -/
theorem swap_symmetry_of_rows_witness :
    (match_results
        [{ name := "foo".toList, version := "2.0-1".toList, arch := "x86_64".toList,
           full_line := "foo-2.0-1.x86_64".toList },
         { name := "baz".toList, version := "3-1".toList, arch := "i686".toList,
           full_line := "baz-3-1.i686".toList }]
        [{ name := "foo".toList, version := "1.0-1".toList, arch := "x86_64".toList,
           full_line := "foo-1.0-1.x86_64".toList },
         { name := "bar".toList, version := "1.0-1".toList, arch := "noarch".toList,
           full_line := "bar-1.0-1.noarch".toList }]).Perm
      ((match_results
        [{ name := "foo".toList, version := "1.0-1".toList, arch := "x86_64".toList,
           full_line := "foo-1.0-1.x86_64".toList },
         { name := "bar".toList, version := "1.0-1".toList, arch := "noarch".toList,
           full_line := "bar-1.0-1.noarch".toList }]
        [{ name := "foo".toList, version := "2.0-1".toList, arch := "x86_64".toList,
           full_line := "foo-2.0-1.x86_64".toList },
         { name := "baz".toList, version := "3-1".toList, arch := "i686".toList,
           full_line := "baz-3-1.i686".toList }]).map swap_row) :=
  swap_symmetry_of_rows _ _ (by decide) (by decide)

/-! ## The order `qsort` leaves -/

theorem strcmp_total (a b : CStr) : strcmp a b ≤ 0 ∨ strcmp b a ≤ 0 := by
  induction a generalizing b with
  | nil => cases b <;> simp [strcmp]
  | cons x xs ih =>
    cases b with
    | nil => simp [strcmp]
    | cons y ys =>
      by_cases h : x = y
      · subst h
        simpa [strcmp] using ih ys
      · have h' : ¬ y = x := fun e => h e.symm
        rcases lt_or_gt_of_ne h with hlt | hgt
        · left; simp [strcmp, h, hlt]
        · right; simp [strcmp, h', hgt]

theorem strcmp_trans {a b c : CStr} (h1 : strcmp a b ≤ 0) (h2 : strcmp b c ≤ 0) :
    strcmp a c ≤ 0 := by
  induction a generalizing b c with
  | nil => cases c <;> simp [strcmp]
  | cons x xs ih =>
    cases b with
    | nil => simp [strcmp] at h1
    | cons y ys =>
      cases c with
      | nil => simp [strcmp] at h2
      | cons z zs =>
        by_cases hxy : x = y
        · subst hxy
          by_cases hxz : x = z
          · subst hxz
            simp only [strcmp, if_true] at h1 h2 ⊢
            exact ih h1 h2
          · by_cases hlt : x < z
            · simp [strcmp, hxz, hlt]
            · simp [strcmp, hxz, hlt] at h2
        · by_cases hlt : x < y
          · by_cases hyz : y = z
            · subst hyz
              simp [strcmp, hxy, hlt]
            · by_cases hlt2 : y < z
              · have hxz : x < z := lt_trans hlt hlt2
                simp [strcmp, ne_of_lt hxz, hxz]
              · simp [strcmp, hyz, hlt2] at h2
          · simp [strcmp, hxy, hlt] at h1

theorem strcmp_antisymm {a b : CStr} (h1 : strcmp a b ≤ 0) (h2 : strcmp b a ≤ 0) : a = b := by
  induction a generalizing b with
  | nil =>
    cases b with
    | nil => rfl
    | cons y ys => simp [strcmp] at h2
  | cons x xs ih =>
    cases b with
    | nil => simp [strcmp] at h1
    | cons y ys =>
      by_cases hxy : x = y
      · subst hxy
        simp only [strcmp, if_true] at h1 h2
        rw [ih h1 h2]
      · have hyx : ¬ y = x := fun e => hxy e.symm
        by_cases hlt : x < y
        · have : ¬ y < x := lt_asymm hlt
          simp [strcmp, hyx, this] at h2
        · simp [strcmp, hxy, hlt] at h1

theorem key_le_total : IsTotal CStr key_le := ⟨strcmp_total⟩

theorem key_le_trans : IsTrans CStr key_le := ⟨fun _ _ _ h1 h2 => strcmp_trans h1 h2⟩

theorem key_le_antisymm : IsAntisymm CStr key_le := ⟨fun _ _ h1 h2 => strcmp_antisymm h1 h2⟩

theorem result_le_total : IsTotal ComparisonResult result_le :=
  ⟨fun a b => strcmp_total a.sort_key b.sort_key⟩

theorem result_le_trans : IsTrans ComparisonResult result_le :=
  ⟨fun _ _ _ h1 h2 => strcmp_trans h1 h2⟩

theorem reversing_qsort_contract : QsortContract reversing_qsort := by
  intro l
  haveI := result_le_total
  haveI := result_le_trans
  refine ⟨?_, ?_⟩
  · exact (List.perm_insertionSort result_le l.reverse).trans (List.reverse_perm l)
  · exact List.sorted_insertionSort result_le l.reverse

/-- Whatever `qsort` does within its contract, the sequence of sort keys it
leaves is the sorted sequence of the keys it was given. -/
theorem qsort_sort_keys (qsort : List ComparisonResult → List ComparisonResult)
    (hq : QsortContract qsort) (l : List ComparisonResult) :
    (qsort l).map (fun r => r.sort_key) =
      List.insertionSort key_le (l.map fun r => r.sort_key) := by
  haveI := key_le_total
  haveI := key_le_trans
  haveI := key_le_antisymm
  obtain ⟨hp, hs⟩ := hq l
  apply List.eq_of_perm_of_sorted (r := key_le)
  · exact (hp.map _).trans (List.perm_insertionSort key_le _).symm
  · exact List.pairwise_map.2 hs
  · exact List.sorted_insertionSort key_le _

theorem a_results_sort_keys (A B : List Package) :
    (a_results (match_results A B)).map (fun r => r.sort_key) = A.map Package.name := by
  rw [a_results_match_results, List.map_map]
  exact match_loop_a_sort_keys B B.length A _

theorem insertion_qsort_contract : QsortContract insertion_qsort := by
  intro l
  haveI := result_le_total
  haveI := result_le_trans
  exact ⟨List.perm_insertionSort result_le l, List.sorted_insertionSort result_le l⟩

/-- The contract of `qsort` leaves the order of ties open.  With
A = [`foo-1.0-1.x86_64`, `foo-1.0-1.i686`] and B empty both rows have sort key
`foo`.  Insertion sort and insertion sort of the reversed array both meet the
contract; the first leaves the two rows in their order, the second exchanges
them.  Whether the order of rows with equal sort key survives the sort is
decided by the C library behind the call `qsort(...)`, not by `main.c`. -/
theorem qsort_contract_leaves_ties_open :
    QsortContract insertion_qsort ∧ QsortContract reversing_qsort ∧
    a_results (match_results
        [{ name := "foo".toList, version := "1.0-1".toList, arch := "x86_64".toList,
           full_line := "foo-1.0-1.x86_64".toList },
         { name := "foo".toList, version := "1.0-1".toList, arch := "i686".toList,
           full_line := "foo-1.0-1.i686".toList }] []) =
      [{ package_a := "foo-1.0-1.x86_64".toList, package_b := [], status := '<',
         sort_key := "foo".toList },
       { package_a := "foo-1.0-1.i686".toList, package_b := [], status := '<',
         sort_key := "foo".toList }] ∧
    insertion_qsort (a_results (match_results
        [{ name := "foo".toList, version := "1.0-1".toList, arch := "x86_64".toList,
           full_line := "foo-1.0-1.x86_64".toList },
         { name := "foo".toList, version := "1.0-1".toList, arch := "i686".toList,
           full_line := "foo-1.0-1.i686".toList }] [])) =
      [{ package_a := "foo-1.0-1.x86_64".toList, package_b := [], status := '<',
         sort_key := "foo".toList },
       { package_a := "foo-1.0-1.i686".toList, package_b := [], status := '<',
         sort_key := "foo".toList }] ∧
    reversing_qsort (a_results (match_results
        [{ name := "foo".toList, version := "1.0-1".toList, arch := "x86_64".toList,
           full_line := "foo-1.0-1.x86_64".toList },
         { name := "foo".toList, version := "1.0-1".toList, arch := "i686".toList,
           full_line := "foo-1.0-1.i686".toList }] [])) =
      [{ package_a := "foo-1.0-1.i686".toList, package_b := [], status := '<',
         sort_key := "foo".toList },
       { package_a := "foo-1.0-1.x86_64".toList, package_b := [], status := '<',
         sort_key := "foo".toList }] ∧
    stable_order
      (a_results (match_results
        [{ name := "foo".toList, version := "1.0-1".toList, arch := "x86_64".toList,
           full_line := "foo-1.0-1.x86_64".toList },
         { name := "foo".toList, version := "1.0-1".toList, arch := "i686".toList,
           full_line := "foo-1.0-1.i686".toList }] []))
      (insertion_qsort (a_results (match_results
        [{ name := "foo".toList, version := "1.0-1".toList, arch := "x86_64".toList,
           full_line := "foo-1.0-1.x86_64".toList },
         { name := "foo".toList, version := "1.0-1".toList, arch := "i686".toList,
           full_line := "foo-1.0-1.i686".toList }] []))) ∧
    ¬ stable_order
      (a_results (match_results
        [{ name := "foo".toList, version := "1.0-1".toList, arch := "x86_64".toList,
           full_line := "foo-1.0-1.x86_64".toList },
         { name := "foo".toList, version := "1.0-1".toList, arch := "i686".toList,
           full_line := "foo-1.0-1.i686".toList }] []))
      (reversing_qsort (a_results (match_results
        [{ name := "foo".toList, version := "1.0-1".toList, arch := "x86_64".toList,
           full_line := "foo-1.0-1.x86_64".toList },
         { name := "foo".toList, version := "1.0-1".toList, arch := "i686".toList,
           full_line := "foo-1.0-1.i686".toList }] []))) :=
  ⟨insertion_qsort_contract, reversing_qsort_contract, by decide, by decide, by decide,
    fun k => congrArg (List.filter fun r => decide (r.sort_key = k))
      (show insertion_qsort _ = a_results _ by decide),
    fun h => absurd (h "foo".toList) (by decide)⟩

/-- What the two `qsort` calls guarantee whatever the library does with ties.
For every sorting function within the contract of `qsort`, each partition after the sort is a
rearrangement of the partition before the sort in non-decreasing byte-wise
order of sort key; for every sort key the results with that key are the same
before and after (as a multiset; their relative order is left to `qsort`); and
the sequence of sort keys after the sort is the sorted sequence of the names
of A for the A-side partition, and the sorted sequence of the keys of the
B-only partition for that one, whatever `qsort` does with ties. -/
theorem sort_orders_partitions_by_key (qsort : List ComparisonResult → List ComparisonResult)
    (hq : QsortContract qsort) (A B : List Package) :
    ((qsort (a_results (match_results A B))).Perm (a_results (match_results A B)) ∧
      (qsort (a_results (match_results A B))).Pairwise
        (fun x y => key_le x.sort_key y.sort_key) ∧
      (∀ k : CStr,
        ((qsort (a_results (match_results A B))).filter fun r => decide (r.sort_key = k)).Perm
          ((a_results (match_results A B)).filter fun r => decide (r.sort_key = k))) ∧
      (qsort (a_results (match_results A B))).map (fun r => r.sort_key) =
        List.insertionSort key_le (A.map Package.name)) ∧
    ((qsort (b_only_results (match_results A B))).Perm (b_only_results (match_results A B)) ∧
      (qsort (b_only_results (match_results A B))).Pairwise
        (fun x y => key_le x.sort_key y.sort_key) ∧
      (∀ k : CStr,
        ((qsort (b_only_results (match_results A B))).filter
            fun r => decide (r.sort_key = k)).Perm
          ((b_only_results (match_results A B)).filter fun r => decide (r.sort_key = k))) ∧
      (qsort (b_only_results (match_results A B))).map (fun r => r.sort_key) =
        List.insertionSort key_le
          ((b_only_results (match_results A B)).map fun r => r.sort_key)) := by
  refine ⟨⟨(hq _).1, (hq _).2, fun k => (hq _).1.filter _, ?_⟩,
    ⟨(hq _).1, (hq _).2, fun k => (hq _).1.filter _, qsort_sort_keys qsort hq _⟩⟩
  rw [qsort_sort_keys qsort hq, a_results_sort_keys]

/-- An instance: the reversing sort on A = [`foo-1.0-1.x86_64`,
`bar-2-1.noarch`, `foo-1.0-1.i686`], B = [`baz-1-1.noarch`]: the keys come out
as `bar`, `foo`, `foo`. -/
theorem sort_orders_partitions_by_key_witness :
    (reversing_qsort (a_results (match_results
        [{ name := "foo".toList, version := "1.0-1".toList, arch := "x86_64".toList,
           full_line := "foo-1.0-1.x86_64".toList },
         { name := "bar".toList, version := "2-1".toList, arch := "noarch".toList,
           full_line := "bar-2-1.noarch".toList },
         { name := "foo".toList, version := "1.0-1".toList, arch := "i686".toList,
           full_line := "foo-1.0-1.i686".toList }]
        [{ name := "baz".toList, version := "1-1".toList, arch := "noarch".toList,
           full_line := "baz-1-1.noarch".toList }]))).map (fun r => r.sort_key) =
      List.insertionSort key_le ["foo".toList, "bar".toList, "foo".toList] ∧
    List.insertionSort key_le ["foo".toList, "bar".toList, "foo".toList] =
      ["bar".toList, "foo".toList, "foo".toList] :=
  ⟨(sort_orders_partitions_by_key reversing_qsort reversing_qsort_contract
      [{ name := "foo".toList, version := "1.0-1".toList, arch := "x86_64".toList,
         full_line := "foo-1.0-1.x86_64".toList },
       { name := "bar".toList, version := "2-1".toList, arch := "noarch".toList,
         full_line := "bar-2-1.noarch".toList },
       { name := "foo".toList, version := "1.0-1".toList, arch := "i686".toList,
         full_line := "foo-1.0-1.i686".toList }]
      [{ name := "baz".toList, version := "1-1".toList, arch := "noarch".toList,
         full_line := "baz-1-1.noarch".toList }]).1.2.2.2, by decide⟩

/-! ## C11: the order of the report -/

theorem filterMap_eq_map_of_some {α β : Type} (g : α → Option β) (f : α → β) (l : List α)
    (h : ∀ x, x ∈ l → g x = some (f x)) : l.filterMap g = l.map f := by
  induction l with
  | nil => rfl
  | cons x xs ih =>
    rw [List.filterMap_cons, h x (List.mem_cons_self _ _), List.map_cons,
      ih fun y hy => h y (List.mem_cons_of_mem _ hy)]

/-- The results of the loop over A: status `=`, `|` or `<`, and an empty B column
in the last case. -/
theorem a_results_rows (A B : List Package) :
    ∀ r, r ∈ a_results (match_results A B) →
      r.status = '=' ∨ r.status = '|' ∨ (r.status = '<' ∧ r.package_b = []) := by
  intro r hr
  rw [a_results_match_results] at hr
  obtain ⟨x, hx, rfl⟩ := List.mem_map.1 hr
  obtain ⟨a, -, pr, -, rfl⟩ :=
    match_loop_a_mem B B.length A _ (List.length_replicate _ _) x hx
  rcases (match_iteration_spec B B.length a pr).2.2 with
    ⟨-, h2, h3, -⟩ | ⟨j, -, -, -, -, -, -, h | h⟩
  · exact Or.inr (Or.inr ⟨h2, h3⟩)
  · exact Or.inl h.1
  · exact Or.inr (Or.inl h.1)

/-- The results of the loop over B: status `>` and an empty A column. -/
theorem b_only_results_rows (A B : List Package) :
    ∀ r, r ∈ b_only_results (match_results A B) → r.status = '>' ∧ r.package_a = [] := by
  intro r hr
  rw [b_only_results_match_results, match_loop_b_eq, List.map_map] at hr
  obtain ⟨i, -, rfl⟩ := List.mem_map.1 hr
  exact ⟨rfl, rfl⟩

theorem partitions_perm (R : List ComparisonResult) :
    (a_results R ++ b_only_results R).Perm R := by
  have h := List.filter_append_perm (fun r : ComparisonResult => r.status == '>') R
  exact List.perm_append_comm.trans h

theorem console_a_line_eq {r : ComparisonResult}
    (h : r.status = '=' ∨ r.status = '|' ∨ (r.status = '<' ∧ r.package_b = [])) :
    console_a_line r = some (console_line r) := by
  cases r with
  | mk pa pb st k =>
    simp only at h
    rcases h with rfl | rfl | ⟨rfl, rfl⟩
    · rfl
    · rfl
    · simp [console_a_line, console_line]

theorem csv_a_line_eq {r : ComparisonResult}
    (h : r.status = '=' ∨ r.status = '|' ∨ (r.status = '<' ∧ r.package_b = [])) :
    csv_a_line r = some (csv_line r) := by
  cases r with
  | mk pa pb st k =>
    simp only at h
    rcases h with rfl | rfl | ⟨rfl, rfl⟩
    · rfl
    · rfl
    · simp [csv_a_line, csv_line]

theorem console_b_line_eq {r : ComparisonResult} (h : r.status = '>' ∧ r.package_a = []) :
    console_b_line r = console_line r := by
  cases r with
  | mk pa pb st k =>
    simp only at h
    obtain ⟨rfl, rfl⟩ := h
    rfl

theorem csv_b_line_eq {r : ComparisonResult} (h : r.status = '>' ∧ r.package_a = []) :
    csv_b_line r = csv_line r := by
  cases r with
  | mk pa pb st k =>
    simp only at h
    obtain ⟨rfl, rfl⟩ := h
    rfl

/-- C11: report order.  For every sorting function within the contract of
`qsort`: the rows of the report are a rearrangement of the matcher's results;
they are the A-side rows (status `=`, `|`, `<`) in non-decreasing byte-wise
order of sort key followed by the B-only rows (status `>`) in non-decreasing
byte-wise order of sort key, so that no `>` row precedes an A-side row; and
the lines printed in console mode and written in CSV mode are the lines of
exactly these rows in this order. -/
theorem report_order (qsort : List ComparisonResult → List ComparisonResult)
    (hq : QsortContract qsort) (A B : List Package) :
    (report_rows qsort A B).Perm (match_results A B) ∧
    report_rows qsort A B =
      qsort (a_results (match_results A B)) ++ qsort (b_only_results (match_results A B)) ∧
    (∀ r, r ∈ qsort (a_results (match_results A B)) →
      r.status = '=' ∨ r.status = '|' ∨ r.status = '<') ∧
    (∀ r, r ∈ qsort (b_only_results (match_results A B)) → r.status = '>') ∧
    (qsort (a_results (match_results A B))).Pairwise
      (fun x y => key_le x.sort_key y.sort_key) ∧
    (qsort (b_only_results (match_results A B))).Pairwise
      (fun x y => key_le x.sort_key y.sort_key) ∧
    (report_rows qsort A B).Pairwise (fun x y => x.status = '>' → y.status = '>') ∧
    console_output (qsort (a_results (match_results A B)))
        (qsort (b_only_results (match_results A B))) =
      (report_rows qsort A B).map console_line ∧
    csv_output (qsort (a_results (match_results A B)))
        (qsort (b_only_results (match_results A B))) =
      "Package A,Status,Package B\n".toList :: (report_rows qsort A B).map csv_line := by
  have ha : ∀ r, r ∈ qsort (a_results (match_results A B)) →
      r.status = '=' ∨ r.status = '|' ∨ (r.status = '<' ∧ r.package_b = []) :=
    fun r hr => a_results_rows A B r ((hq _).1.mem_iff.1 hr)
  have hb : ∀ r, r ∈ qsort (b_only_results (match_results A B)) →
      r.status = '>' ∧ r.package_a = [] :=
    fun r hr => b_only_results_rows A B r ((hq _).1.mem_iff.1 hr)
  refine ⟨?_, rfl, ?_, fun r hr => (hb r hr).1, (hq _).2, (hq _).2, ?_, ?_, ?_⟩
  · exact ((hq _).1.append (hq _).1).trans (partitions_perm _)
  · intro r hr
    rcases ha r hr with h | h | h
    · exact Or.inl h
    · exact Or.inr (Or.inl h)
    · exact Or.inr (Or.inr h.1)
  · unfold report_rows
    rw [List.pairwise_append]
    refine ⟨?_, ?_, ?_⟩
    · refine List.Pairwise.imp_of_mem ?_ (List.pairwise_of_forall (fun _ _ => trivial) :
        List.Pairwise (fun _ _ => True) _)
      intro x y hx _ _ hgt
      rcases ha x hx with h | h | h
      · rw [h] at hgt; exact absurd hgt (by decide)
      · rw [h] at hgt; exact absurd hgt (by decide)
      · rw [h.1] at hgt; exact absurd hgt (by decide)
    · exact List.pairwise_of_forall_mem_list fun x _ y hy _ => (hb y hy).1
    · intro x _ y hy _
      exact (hb y hy).1
  · unfold console_output report_rows
    rw [List.map_append, filterMap_eq_map_of_some console_a_line console_line _
      fun r hr => console_a_line_eq (ha r hr)]
    congr 1
    exact List.map_congr_left fun r hr => console_b_line_eq (hb r hr)
  · unfold csv_output report_rows
    rw [List.map_append, filterMap_eq_map_of_some csv_a_line csv_line _
      fun r hr => csv_a_line_eq (ha r hr)]
    congr 2
    exact List.map_congr_left fun r hr => csv_b_line_eq (hb r hr)

/-- C11 (witness): A = [`foo-1.0-1.x86_64`, `bar-2-1.noarch`],
B = [`foo-2.0-1.x86_64`, `baz-1-1.noarch`, `abc-1-1.noarch`] with the reversing
sort: the rows come out as `bar` (`<`), `foo` (`|`), then `abc` (`>`), `baz`
(`>`). -/
theorem report_order_witness :
    report_rows reversing_qsort
        [{ name := "foo".toList, version := "1.0-1".toList, arch := "x86_64".toList,
           full_line := "foo-1.0-1.x86_64".toList },
         { name := "bar".toList, version := "2-1".toList, arch := "noarch".toList,
           full_line := "bar-2-1.noarch".toList }]
        [{ name := "foo".toList, version := "2.0-1".toList, arch := "x86_64".toList,
           full_line := "foo-2.0-1.x86_64".toList },
         { name := "baz".toList, version := "1-1".toList, arch := "noarch".toList,
           full_line := "baz-1-1.noarch".toList },
         { name := "abc".toList, version := "1-1".toList, arch := "noarch".toList,
           full_line := "abc-1-1.noarch".toList }] =
      [{ package_a := "bar-2-1.noarch".toList, package_b := [], status := '<',
         sort_key := "bar".toList },
       { package_a := "foo-1.0-1.x86_64".toList, package_b := "foo-2.0-1.x86_64".toList,
         status := '|', sort_key := "foo".toList },
       { package_a := [], package_b := "abc-1-1.noarch".toList, status := '>',
         sort_key := "abc".toList },
       { package_a := [], package_b := "baz-1-1.noarch".toList, status := '>',
         sort_key := "baz".toList }] ∧
    (report_rows reversing_qsort
        [{ name := "foo".toList, version := "1.0-1".toList, arch := "x86_64".toList,
           full_line := "foo-1.0-1.x86_64".toList },
         { name := "bar".toList, version := "2-1".toList, arch := "noarch".toList,
           full_line := "bar-2-1.noarch".toList }]
        [{ name := "foo".toList, version := "2.0-1".toList, arch := "x86_64".toList,
           full_line := "foo-2.0-1.x86_64".toList },
         { name := "baz".toList, version := "1-1".toList, arch := "noarch".toList,
           full_line := "baz-1-1.noarch".toList },
         { name := "abc".toList, version := "1-1".toList, arch := "noarch".toList,
           full_line := "abc-1-1.noarch".toList }]).Perm
      (match_results
        [{ name := "foo".toList, version := "1.0-1".toList, arch := "x86_64".toList,
           full_line := "foo-1.0-1.x86_64".toList },
         { name := "bar".toList, version := "2-1".toList, arch := "noarch".toList,
           full_line := "bar-2-1.noarch".toList }]
        [{ name := "foo".toList, version := "2.0-1".toList, arch := "x86_64".toList,
           full_line := "foo-2.0-1.x86_64".toList },
         { name := "baz".toList, version := "1-1".toList, arch := "noarch".toList,
           full_line := "baz-1-1.noarch".toList },
         { name := "abc".toList, version := "1-1".toList, arch := "noarch".toList,
           full_line := "abc-1-1.noarch".toList }]) :=
  ⟨by decide, (report_order reversing_qsort reversing_qsort_contract _ _).1⟩

/-! ## C12: the order of the results before sorting -/

theorem match_loop_a_getD (B : List Package) (n : Nat) :
    ∀ (A : List Package) (pr : List Bool) (i : Nat), i < A.length →
      (match_loop_a B n A pr).2.getD i default =
          (match_iteration B n (A.getD i default) (match_loop_a B n (A.take i) pr).1).2 ∧
        (match_loop_a B n (A.take (i + 1)) pr).1 =
          (match_iteration B n (A.getD i default) (match_loop_a B n (A.take i) pr).1).1 := by
  intro A
  induction A with
  | nil => intro pr i hi; simp at hi
  | cons a rest ih =>
    intro pr i hi
    cases i with
    | zero => exact ⟨rfl, rfl⟩
    | succ i =>
      have hi' : i < rest.length := by simpa using hi
      obtain ⟨h1, h2⟩ := ih (match_iteration B n a pr).1 i hi'
      refine ⟨?_, ?_⟩
      · simp only [match_loop_a, List.getD_cons_succ, List.take_succ_cons]
        exact h1
      · simp only [match_loop_a, List.getD_cons_succ, List.take_succ_cons]
        exact h2

theorem match_loop_a_package_a (B : List Package) (n : Nat) :
    ∀ (A : List Package) (pr : List Bool),
      (match_loop_a B n A pr).2.map (fun x => x.2.package_a) = A.map Package.full_line := by
  intro A
  induction A with
  | nil => intro pr; rfl
  | cons a rest ih =>
    intro pr
    simp only [match_loop_a, List.map_cons, ih, (match_iteration_spec B n a pr).1]

theorem match_trace_getD (A B : List Package) (i : Nat) (hi : i < A.length) :
    (match_trace A B).getD i default =
        (match_iteration B B.length (A.getD i default) (processed_before A B i)).2 ∧
      processed_before A B (i + 1) =
        (match_iteration B B.length (A.getD i default) (processed_before A B i)).1 := by
  obtain ⟨h1, h2⟩ := match_loop_a_getD B B.length A (List.replicate B.length false) i hi
  refine ⟨?_, h2⟩
  unfold match_trace processed_before
  rw [← h1, List.getD_eq_getElem?_getD, List.getD_eq_getElem?_getD,
    List.getElem?_append_left (by rw [match_loop_a_results_length]; exact hi)]

theorem take_match_results (A B : List Package) :
    (match_results A B).take A.length =
      (match_loop_a B B.length A (List.replicate B.length false)).2.map Prod.snd := by
  rw [match_results_eq]
  exact List.take_left' (by rw [List.length_map, match_loop_a_results_length])

theorem drop_match_results (A B : List Package) :
    (match_results A B).drop A.length =
      (match_loop_b B B.length
        (match_loop_a B B.length A (List.replicate B.length false)).1).map Prod.snd := by
  rw [match_results_eq]
  exact List.drop_left' (by rw [List.length_map, match_loop_a_results_length])

/-- The final `processed_b` marks exactly the consumed indices. -/
theorem processed_final_iff (A B : List Package) (j : Nat) :
    (match_loop_a B B.length A (List.replicate B.length false)).1.getD j false = true ↔
      j ∈ consumed A B := by
  obtain ⟨-, -, f3⟩ := match_loop_a_found B B.length A (List.replicate B.length false)
    (List.length_replicate _ _)
  have h0 := getD_replicate_append 0 B.length j
  simp only [List.replicate_zero, List.nil_append] at h0
  rw [f3 j, h0]
  simp [consumed]

/-- C12: the order of the results before sorting.  The first |A| results
belong, position by position, to the entries of A: the A column of result `i`
is the full line of `A[i]`, its sort key is the name of `A[i]`, and it is no
OnlyInB result.  They are followed by one OnlyInB result for every B entry
that the loop over A did not consume, in increasing order of the B index, with
that entry's full line as B column and its name as sort key. -/
theorem pre_sort_order (A B : List Package) :
    ((match_results A B).take A.length).length = A.length ∧
    ((match_results A B).take A.length).map (fun r => r.package_a) =
      A.map Package.full_line ∧
    ((match_results A B).take A.length).map (fun r => r.sort_key) = A.map Package.name ∧
    (∀ r, r ∈ (match_results A B).take A.length → r.status ≠ '>') ∧
    (match_results A B).drop A.length =
      ((List.range B.length).filter fun j => decide (j ∉ consumed A B)).map
        fun j => { package_a := [], package_b := (B.getD j default).full_line, status := '>',
                   sort_key := (B.getD j default).name } := by
  refine ⟨?_, ?_, ?_, ?_, ?_⟩
  · rw [take_match_results, List.length_map, match_loop_a_results_length]
  · rw [take_match_results, List.map_map]
    exact match_loop_a_package_a B B.length A _
  · rw [take_match_results, List.map_map]
    exact match_loop_a_sort_keys B B.length A _
  · intro r hr
    rw [take_match_results] at hr
    obtain ⟨x, hx, rfl⟩ := List.mem_map.1 hr
    rcases match_loop_a_status B B.length A _ (List.length_replicate _ _) x hx with
      ⟨-, h⟩ | ⟨j, -, -, h | h⟩ <;> rw [h] <;> decide
  · rw [drop_match_results, match_loop_b_eq, List.map_map]
    have hf : (List.range B.length).filter (fun i =>
        !(match_loop_a B B.length A (List.replicate B.length false)).1.getD i false) =
        (List.range B.length).filter fun j => decide (j ∉ consumed A B) := by
      apply List.filter_congr
      intro j _
      rw [Bool.eq_iff_iff]
      simp only [Bool.not_eq_true', decide_eq_true_eq, ← processed_final_iff,
        Bool.not_eq_true]
    rw [hf]
    rfl

/-! ## C17: match priority and tie-break -/

/-- Among finitely many indices, a decidable property that holds somewhere below
`n` holds at a lowest index. -/
theorem exists_first_unconsumed (q : Nat → Bool) (n : Nat) (pr : List Bool)
    (h : ∃ j, j < n ∧ pr.getD j false = false ∧ q j = true) :
    ∃ j, first_unconsumed q n pr j := by
  cases hf : (List.range n).find? (fun i => !pr.getD i false && q i) with
  | none =>
    obtain ⟨j, h1, h2, h3⟩ := h
    have := find_range_eq_none.1 hf j h1
    rw [not_and_eq_false] at this
    exact absurd ⟨h2, h3⟩ this
  | some j =>
    obtain ⟨h1, h2, h3⟩ := find_range_eq_some.1 hf
    rw [not_and_eq_true] at h2
    refine ⟨j, h1, h2.1, h2.2, ?_⟩
    intro i hi
    have := h3 i hi
    rw [not_and_eq_false] at this
    exact this

theorem find_exact_package_of_first {B : List Package} {n : Nat} {a : Package}
    {pr : List Bool} {j : Nat}
    (h : first_unconsumed (fun j => packages_equal (B.getD j default) a) n pr j) :
    find_exact_package B n a pr = some j :=
  find_exact_package_eq_some.2 h

theorem find_package_by_name_of_first {B : List Package} {n : Nat} {nm : CStr}
    {pr : List Bool} {j : Nat}
    (h : first_unconsumed (fun j => decide ((B.getD j default).name = nm)) n pr j) :
    find_package_by_name B n nm pr = some j := by
  rw [find_package_by_name_eq_some]
  obtain ⟨h1, h2, h3, h4⟩ := h
  refine ⟨h1, h2, of_decide_eq_true h3, ?_⟩
  intro i hi hc
  exact h4 i hi ⟨hc.1, decide_eq_true hc.2⟩

/-- C17: match priority and tie-break.  The result at position `i` and the
markers after it are those of one iteration for `A[i]` on the markers
`processed_before A B i` left by the entries before it.  In that iteration: if
some not yet consumed B entry equals `A[i]` in name, version and arch, the
result is Identical with the lowest-index such entry; otherwise, if some not
yet consumed B entry has the name of `A[i]`, the result is Differs with the
lowest-index such entry; otherwise it is OnlyInA and the markers stay as they
are.  In the first two cases the markers change at the chosen index only,
which becomes consumed. -/
theorem match_priority (A B : List Package) (i : Nat) (hi : i < A.length) :
    (match_trace A B).getD i default =
      (match_iteration B B.length (A.getD i default) (processed_before A B i)).2 ∧
    processed_before A B (i + 1) =
      (match_iteration B B.length (A.getD i default) (processed_before A B i)).1 ∧
    ((∃ j, j < B.length ∧ (processed_before A B i).getD j false = false ∧
        packages_equal (B.getD j default) (A.getD i default) = true) →
      ∃ j, first_unconsumed (fun j => packages_equal (B.getD j default) (A.getD i default))
          B.length (processed_before A B i) j ∧
        match_iteration B B.length (A.getD i default) (processed_before A B i) =
          ((processed_before A B i).set j true, some j,
            { package_a := (A.getD i default).full_line,
              package_b := (B.getD j default).full_line, status := '=',
              sort_key := (A.getD i default).name })) ∧
    ((¬ ∃ j, j < B.length ∧ (processed_before A B i).getD j false = false ∧
        packages_equal (B.getD j default) (A.getD i default) = true) →
      (∃ j, j < B.length ∧ (processed_before A B i).getD j false = false ∧
        (B.getD j default).name = (A.getD i default).name) →
      ∃ j, first_unconsumed
          (fun j => decide ((B.getD j default).name = (A.getD i default).name))
          B.length (processed_before A B i) j ∧
        match_iteration B B.length (A.getD i default) (processed_before A B i) =
          ((processed_before A B i).set j true, some j,
            { package_a := (A.getD i default).full_line,
              package_b := (B.getD j default).full_line, status := '|',
              sort_key := (A.getD i default).name })) ∧
    ((¬ ∃ j, j < B.length ∧ (processed_before A B i).getD j false = false ∧
        (B.getD j default).name = (A.getD i default).name) →
      match_iteration B B.length (A.getD i default) (processed_before A B i) =
        (processed_before A B i, none,
          { package_a := (A.getD i default).full_line, package_b := [], status := '<',
            sort_key := (A.getD i default).name })) ∧
    (∀ j k, j < B.length →
      ((processed_before A B i).set j true).getD k false =
        if k = j then true else (processed_before A B i).getD k false) := by
  have hlen : (processed_before A B i).length = B.length := by
    unfold processed_before
    rw [match_loop_a_length, List.length_replicate]
  obtain ⟨t1, t2⟩ := match_trace_getD A B i hi
  refine ⟨t1, t2, ?_, ?_, ?_, ?_⟩
  · intro h
    obtain ⟨j, hj⟩ := exists_first_unconsumed _ _ _ h
    refine ⟨j, hj, ?_⟩
    unfold match_iteration
    rw [find_exact_package_of_first hj]
  · intro hne h
    obtain ⟨j, hj⟩ := exists_first_unconsumed
      (fun j => decide ((B.getD j default).name = (A.getD i default).name)) _ _
      (by
        obtain ⟨j, h1, h2, h3⟩ := h
        exact ⟨j, h1, h2, decide_eq_true h3⟩)
    refine ⟨j, hj, ?_⟩
    have hnone : find_exact_package B B.length (A.getD i default) (processed_before A B i) =
        none := by
      rw [find_exact_package_eq_none]
      intro k hk hc
      exact hne ⟨k, hk, hc.1, hc.2⟩
    unfold match_iteration
    rw [hnone, find_package_by_name_of_first hj]
  · intro hne
    have hnone : find_exact_package B B.length (A.getD i default) (processed_before A B i) =
        none := by
      rw [find_exact_package_eq_none]
      intro k hk hc
      exact hne ⟨k, hk, hc.1, (packages_equal_iff.1 hc.2).1⟩
    have hnone2 : find_package_by_name B B.length (A.getD i default).name
        (processed_before A B i) = none := by
      rw [find_package_by_name_eq_none]
      intro k hk hc
      exact hne ⟨k, hk, hc.1, hc.2⟩
    unfold match_iteration
    rw [hnone, hnone2]
  · intro j k hj
    rw [getD_set_true]
    by_cases hkj : k = j
    · simp [hkj, hlen, hj]
    · simp [hkj]

/-- C17 (witness): A = [`foo-1.0-1.x86_64`, `foo-2.0-1.x86_64`],
B = [`foo-2.0-1.x86_64`, `foo-1.0-1.x86_64`], position 1: when `foo-2.0-1` is
visited only `B[0]` is left, it is equal, and the result is Identical with
`B[0]`. -/
theorem match_priority_witness :
    (match_trace
        [{ name := "foo".toList, version := "1.0-1".toList, arch := "x86_64".toList,
           full_line := "foo-1.0-1.x86_64".toList },
         { name := "foo".toList, version := "2.0-1".toList, arch := "x86_64".toList,
           full_line := "foo-2.0-1.x86_64".toList }]
        [{ name := "foo".toList, version := "2.0-1".toList, arch := "x86_64".toList,
           full_line := "foo-2.0-1.x86_64".toList },
         { name := "foo".toList, version := "1.0-1".toList, arch := "x86_64".toList,
           full_line := "foo-1.0-1.x86_64".toList }]).getD 1 default =
      (match_iteration
        [{ name := "foo".toList, version := "2.0-1".toList, arch := "x86_64".toList,
           full_line := "foo-2.0-1.x86_64".toList },
         { name := "foo".toList, version := "1.0-1".toList, arch := "x86_64".toList,
           full_line := "foo-1.0-1.x86_64".toList }] 2
        { name := "foo".toList, version := "2.0-1".toList, arch := "x86_64".toList,
          full_line := "foo-2.0-1.x86_64".toList } [false, true]).2 ∧
    (match_iteration
        [{ name := "foo".toList, version := "2.0-1".toList, arch := "x86_64".toList,
           full_line := "foo-2.0-1.x86_64".toList },
         { name := "foo".toList, version := "1.0-1".toList, arch := "x86_64".toList,
           full_line := "foo-1.0-1.x86_64".toList }] 2
        { name := "foo".toList, version := "2.0-1".toList, arch := "x86_64".toList,
          full_line := "foo-2.0-1.x86_64".toList } [false, true]).2 =
      (some 0, { package_a := "foo-2.0-1.x86_64".toList,
                 package_b := "foo-2.0-1.x86_64".toList, status := '=',
                 sort_key := "foo".toList }) :=
  ⟨(match_priority
      [{ name := "foo".toList, version := "1.0-1".toList, arch := "x86_64".toList,
         full_line := "foo-1.0-1.x86_64".toList },
       { name := "foo".toList, version := "2.0-1".toList, arch := "x86_64".toList,
         full_line := "foo-2.0-1.x86_64".toList }]
      [{ name := "foo".toList, version := "2.0-1".toList, arch := "x86_64".toList,
         full_line := "foo-2.0-1.x86_64".toList },
       { name := "foo".toList, version := "1.0-1".toList, arch := "x86_64".toList,
         full_line := "foo-1.0-1.x86_64".toList }] 1 (by decide)).1, by decide⟩

/-! ## C19: no name is missing on both sides -/

/-- When an iteration finds nothing (OnlyInA), no B entry with that name is
left unconsumed at the end of the loop. -/
theorem only_in_a_name_consumed (B : List Package) (n : Nat) :
    ∀ (A : List Package) (pr : List Bool), pr.length = n →
      ∀ x, x ∈ (match_loop_a B n A pr).2 → x.1 = none →
        ∀ i, i < n → (match_loop_a B n A pr).1.getD i false = false →
          (B.getD i default).name ≠ x.2.sort_key := by
  intro A
  induction A with
  | nil => intro pr _ x hx; simp [match_loop_a] at hx
  | cons a rest ih =>
    intro pr hpr x hx hnone i hi hfin
    have hlen : (match_iteration B n a pr).1.length = n := by
      rw [match_iteration_length, hpr]
    simp only [match_loop_a, List.mem_cons] at hx hfin
    rcases hx with rfl | hx
    · obtain ⟨-, s2, s3⟩ := match_iteration_spec B n a pr
      rcases s3 with ⟨-, -, -, h, h5⟩ | ⟨j, h1, -⟩
      · rw [s2]
        apply h5 i hi
        obtain ⟨-, -, f3⟩ := match_loop_a_found B n rest _ hlen
        cases hp : pr.getD i false with
        | false => rfl
        | true =>
          have := (f3 i).2 (Or.inl (by rw [h]; exact hp))
          rw [hfin] at this
          cases this
      · rw [h1] at hnone
        cases hnone
    · exact ih _ hlen x hx hnone i hi hfin

/-- C19: no name is reported as missing on both sides: an OnlyInA result and an
OnlyInB result of the same run never have the same sort key. -/
theorem no_name_missing_on_both_sides (A B : List Package) (r₁ r₂ : ComparisonResult)
    (h₁ : r₁ ∈ match_results A B) (h₂ : r₂ ∈ match_results A B)
    (hs₁ : r₁.status = '<') (hs₂ : r₂.status = '>') : r₁.sort_key ≠ r₂.sort_key := by
  obtain ⟨x₁, hx₁, rfl⟩ := List.mem_map.1 h₁
  obtain ⟨x₂, hx₂, rfl⟩ := List.mem_map.1 h₂
  unfold match_trace at hx₁ hx₂
  have hrep : (List.replicate B.length false).length = B.length := List.length_replicate _ _
  rcases List.mem_append.1 hx₁ with ha | hb
  · rcases List.mem_append.1 hx₂ with ha₂ | hb₂
    · rcases match_loop_a_status B B.length A _ hrep x₂ ha₂ with ⟨-, h⟩ | ⟨j, -, -, h | h⟩ <;>
        rw [h] at hs₂ <;> exact absurd hs₂ (by decide)
    · have hnone : x₁.1 = none := by
        rcases match_loop_a_status B B.length A _ hrep x₁ ha with ⟨h, -⟩ | ⟨j, -, -, h | h⟩
        · exact h
        · rw [h] at hs₁; exact absurd hs₁ (by decide)
        · rw [h] at hs₁; exact absurd hs₁ (by decide)
      rw [match_loop_b_eq, List.mem_map] at hb₂
      obtain ⟨i, hi, rfl⟩ := hb₂
      obtain ⟨hi1, hi2⟩ := List.mem_filter.1 hi
      simp only [Bool.not_eq_true'] at hi2
      exact fun e => only_in_a_name_consumed B B.length A _ hrep x₁ ha hnone i
        (List.mem_range.1 hi1) hi2 e.symm
  · rw [match_loop_b_status B B.length _ x₁ hb] at hs₁
    exact absurd hs₁ (by decide)

/-- C19 (witness): A = [`foo-1.0-1.x86_64`, `foo-2.0-1.x86_64`],
B = [`bar-1-1.noarch`, `foo-3.0-1.x86_64`]: `foo` is OnlyInA once, `bar` is
OnlyInB. -/
theorem no_name_missing_on_both_sides_witness :
    match_results
        [{ name := "foo".toList, version := "1.0-1".toList, arch := "x86_64".toList,
           full_line := "foo-1.0-1.x86_64".toList },
         { name := "foo".toList, version := "2.0-1".toList, arch := "x86_64".toList,
           full_line := "foo-2.0-1.x86_64".toList }]
        [{ name := "bar".toList, version := "1-1".toList, arch := "noarch".toList,
           full_line := "bar-1-1.noarch".toList },
         { name := "foo".toList, version := "3.0-1".toList, arch := "x86_64".toList,
           full_line := "foo-3.0-1.x86_64".toList }] =
      [{ package_a := "foo-1.0-1.x86_64".toList, package_b := "foo-3.0-1.x86_64".toList,
         status := '|', sort_key := "foo".toList },
       { package_a := "foo-2.0-1.x86_64".toList, package_b := [], status := '<',
         sort_key := "foo".toList },
       { package_a := [], package_b := "bar-1-1.noarch".toList, status := '>',
         sort_key := "bar".toList }] ∧
    "foo".toList ≠ "bar".toList :=
  ⟨by decide,
    no_name_missing_on_both_sides
      [{ name := "foo".toList, version := "1.0-1".toList, arch := "x86_64".toList,
         full_line := "foo-1.0-1.x86_64".toList },
       { name := "foo".toList, version := "2.0-1".toList, arch := "x86_64".toList,
         full_line := "foo-2.0-1.x86_64".toList }]
      [{ name := "bar".toList, version := "1-1".toList, arch := "noarch".toList,
         full_line := "bar-1-1.noarch".toList },
       { name := "foo".toList, version := "3.0-1".toList, arch := "x86_64".toList,
         full_line := "foo-3.0-1.x86_64".toList }]
      { package_a := "foo-2.0-1.x86_64".toList, package_b := [], status := '<',
        sort_key := "foo".toList }
      { package_a := [], package_b := "bar-1-1.noarch".toList, status := '>',
        sort_key := "bar".toList }
      (by decide) (by decide) rfl rfl⟩

/-! ## C18: classification when A has no repeated name -/

theorem zip_append_right {α β : Type} :
    ∀ (l : List α) (x y : List β), l.length = x.length → l.zip (x ++ y) = l.zip x := by
  intro l
  induction l with
  | nil => intro x y _; rfl
  | cons a l ih =>
    intro x y h
    cases x with
    | nil => simp at h
    | cons b x =>
      simp only [List.cons_append, List.zip_cons_cons]
      rw [ih x y (by simpa using h)]

theorem any_equal_iff (B : List Package) (a : Package) :
    B.any (fun b => packages_equal b a) = true ↔
      ∃ b, b ∈ B ∧ b.name = a.name ∧ b.version = a.version ∧ b.arch = a.arch := by
  rw [List.any_eq_true]
  constructor
  · rintro ⟨b, hb, h⟩
    exact ⟨b, hb, packages_equal_iff.1 h⟩
  · rintro ⟨b, hb, h⟩
    exact ⟨b, hb, packages_equal_iff.2 h⟩

theorem any_name_iff (B : List Package) (a : Package) :
    B.any (fun b => decide (b.name = a.name)) = true ↔ ∃ b, b ∈ B ∧ b.name = a.name := by
  rw [List.any_eq_true]
  constructor
  · rintro ⟨b, hb, h⟩
    exact ⟨b, hb, of_decide_eq_true h⟩
  · rintro ⟨b, hb, h⟩
    exact ⟨b, hb, decide_eq_true h⟩

/-- The loop over A when no name is repeated among the A entries still to be
visited and no consumed B entry has one of their names: every entry gets the
status of its classification against the whole of B. -/
theorem match_loop_a_expected_status (B : List Package) (n : Nat) (hn : n = B.length) :
    ∀ (suf : List Package) (pr : List Bool), pr.length = n → (suf.map Package.name).Nodup →
      (∀ i, i < n → pr.getD i false = true →
        (B.getD i default).name ∉ suf.map Package.name) →
      ∀ p, p ∈ suf.zip ((match_loop_a B n suf pr).2.map Prod.snd) →
        p.2.status = expected_status B p.1 := by
  intro suf
  induction suf with
  | nil => intro pr _ _ _ p hp; simp at hp
  | cons a rest ih =>
    intro pr hpr hnd hinv p hp
    have hlen : (match_iteration B n a pr).1.length = n := by
      rw [match_iteration_length, hpr]
    rw [List.map_cons, List.nodup_cons] at hnd
    have hunc : ∀ i, i < n → (B.getD i default).name = a.name → pr.getD i false = false := by
      intro i hi he
      cases hp : pr.getD i false with
      | false => rfl
      | true => exact absurd (he ▸ List.mem_cons_self _ _) (hinv i hi hp)
    simp only [match_loop_a, List.map_cons, List.zip_cons_cons, List.mem_cons] at hp
    rcases hp with rfl | hp
    · simp only
      unfold expected_status
      rcases match_iteration_cases B n a pr with ⟨j, hf, he⟩ | ⟨hf, j, hg, he⟩ | ⟨hf, hg, he⟩
      · rw [he]
        obtain ⟨h1, -, h3, -⟩ := find_exact_package_eq_some.1 hf
        have : B.any (fun b => packages_equal b a) = true :=
          List.any_eq_true.2 ⟨_, getD_mem (by omega), h3⟩
        simp only [this, if_true]
      · rw [he]
        obtain ⟨h1, -, h3, -⟩ := find_package_by_name_eq_some.1 hg
        have hno := find_exact_package_eq_none.1 hf
        have e1 : B.any (fun b => packages_equal b a) = false := by
          rw [Bool.eq_false_iff]
          intro hc
          obtain ⟨b, hb, hbe⟩ := List.any_eq_true.1 hc
          obtain ⟨i, hi, rfl⟩ := List.getElem_of_mem hb
          rw [← List.getD_eq_getElem _ default hi] at hbe
          exact hno i (by omega) ⟨hunc i (by omega) (packages_equal_iff.1 hbe).1, hbe⟩
        have e2 : B.any (fun b => decide (b.name = a.name)) = true :=
          List.any_eq_true.2 ⟨_, getD_mem (by omega), decide_eq_true h3⟩
        simp only [e1, e2, Bool.false_eq_true, if_false, if_true]
      · rw [he]
        have hno := find_package_by_name_eq_none.1 hg
        have e2 : B.any (fun b => decide (b.name = a.name)) = false := by
          rw [Bool.eq_false_iff]
          intro hc
          obtain ⟨b, hb, hbe⟩ := List.any_eq_true.1 hc
          obtain ⟨i, hi, rfl⟩ := List.getElem_of_mem hb
          rw [← List.getD_eq_getElem _ default hi] at hbe
          have hbe' := of_decide_eq_true hbe
          exact hno i (by omega) ⟨hunc i (by omega) hbe', hbe'⟩
        have e1 : B.any (fun b => packages_equal b a) = false := by
          rw [Bool.eq_false_iff]
          intro hc
          obtain ⟨b, hb, hbe⟩ := List.any_eq_true.1 hc
          exact (Bool.eq_false_iff.1 e2)
            (List.any_eq_true.2 ⟨b, hb, decide_eq_true (packages_equal_iff.1 hbe).1⟩)
        simp only [e1, e2, Bool.false_eq_true, if_false]
    · refine ih _ hlen hnd.2 ?_ p hp
      intro i hi hpi
      rcases (match_iteration_spec B n a pr).2.2 with ⟨-, -, -, h, -⟩ | ⟨j, -, h2, -, h, -, h5, -⟩
      · rw [h] at hpi
        exact fun hm => hinv i hi hpi (List.mem_cons_of_mem _ hm)
      · rw [h, getD_set_true] at hpi
        simp only [Bool.or_eq_true, Bool.and_eq_true, decide_eq_true_eq] at hpi
        rcases hpi with hpi | ⟨rfl, -⟩
        · exact fun hm => hinv i hi hpi (List.mem_cons_of_mem _ hm)
        · rw [h5]
          exact hnd.1

/-- C18: classification is exact when no two entries of A share a name.  For
every entry of A, paired with the result at its position: the result is
Identical exactly when B has an entry with the same name, version and arch;
Differs exactly when B has an entry with the same name but none with the same
name, version and arch; OnlyInA exactly when B has no entry with that name. -/
theorem classification_exact (A B : List Package) (hA : (A.map Package.name).Nodup)
    (p : Package × ComparisonResult) (hp : p ∈ A.zip (match_results A B)) :
    (p.2.status = '=' ↔
      ∃ b, b ∈ B ∧ b.name = p.1.name ∧ b.version = p.1.version ∧ b.arch = p.1.arch) ∧
    (p.2.status = '|' ↔
      (∃ b, b ∈ B ∧ b.name = p.1.name) ∧
        ¬ ∃ b, b ∈ B ∧ b.name = p.1.name ∧ b.version = p.1.version ∧ b.arch = p.1.arch) ∧
    (p.2.status = '<' ↔ ¬ ∃ b, b ∈ B ∧ b.name = p.1.name) := by
  have hz : A.zip (match_results A B) =
      A.zip ((match_loop_a B B.length A (List.replicate B.length false)).2.map Prod.snd) := by
    rw [match_results_eq]
    exact zip_append_right _ _ _ (by rw [List.length_map, match_loop_a_results_length])
  rw [hz] at hp
  have hst := match_loop_a_expected_status B B.length rfl A (List.replicate B.length false)
    (List.length_replicate _ _) hA (by
      intro i _ hpi
      have := getD_replicate_append 0 B.length i
      simp only [List.replicate_zero, List.nil_append] at this
      rw [this] at hpi
      simp at hpi) p hp
  rw [hst]
  unfold expected_status
  rw [← any_equal_iff, ← any_name_iff]
  cases h1 : B.any (fun b => packages_equal b p.1) <;>
    cases h2 : B.any (fun b => decide (b.name = p.1.name)) <;> simp
  -- an equal entry has the same name
  have := (any_equal_iff B p.1).1 h1
  obtain ⟨b, hb, hn, -⟩ := this
  have h3 := (any_name_iff B p.1).2 ⟨b, hb, hn⟩
  rw [h2] at h3
  cases h3

/-- C18 (witness): A = [`foo-1.0-1.x86_64`, `bar-2-1.noarch`],
B = [`foo-2.0-1.x86_64`, `foo-1.0-1.x86_64`]: the result of `foo-1.0-1.x86_64`
is Identical, and B indeed has an entry with its name, version and arch. -/
theorem classification_exact_witness :
    match_results
        [{ name := "foo".toList, version := "1.0-1".toList, arch := "x86_64".toList,
           full_line := "foo-1.0-1.x86_64".toList },
         { name := "bar".toList, version := "2-1".toList, arch := "noarch".toList,
           full_line := "bar-2-1.noarch".toList }]
        [{ name := "foo".toList, version := "2.0-1".toList, arch := "x86_64".toList,
           full_line := "foo-2.0-1.x86_64".toList },
         { name := "foo".toList, version := "1.0-1".toList, arch := "x86_64".toList,
           full_line := "foo-1.0-1.x86_64".toList }] =
      [{ package_a := "foo-1.0-1.x86_64".toList, package_b := "foo-1.0-1.x86_64".toList,
         status := '=', sort_key := "foo".toList },
       { package_a := "bar-2-1.noarch".toList, package_b := [], status := '<',
         sort_key := "bar".toList },
       { package_a := [], package_b := "foo-2.0-1.x86_64".toList, status := '>',
         sort_key := "foo".toList }] ∧
    ∃ b, b ∈ [({ name := "foo".toList, version := "2.0-1".toList, arch := "x86_64".toList,
                 full_line := "foo-2.0-1.x86_64".toList } : Package),
              { name := "foo".toList, version := "1.0-1".toList, arch := "x86_64".toList,
                full_line := "foo-1.0-1.x86_64".toList }] ∧
      b.name = "foo".toList ∧ b.version = "1.0-1".toList ∧ b.arch = "x86_64".toList :=
  ⟨by decide,
    (classification_exact
      [{ name := "foo".toList, version := "1.0-1".toList, arch := "x86_64".toList,
         full_line := "foo-1.0-1.x86_64".toList },
       { name := "bar".toList, version := "2-1".toList, arch := "noarch".toList,
         full_line := "bar-2-1.noarch".toList }]
      [{ name := "foo".toList, version := "2.0-1".toList, arch := "x86_64".toList,
         full_line := "foo-2.0-1.x86_64".toList },
       { name := "foo".toList, version := "1.0-1".toList, arch := "x86_64".toList,
         full_line := "foo-1.0-1.x86_64".toList }]
      (by decide)
      ({ name := "foo".toList, version := "1.0-1".toList, arch := "x86_64".toList,
         full_line := "foo-1.0-1.x86_64".toList },
       { package_a := "foo-1.0-1.x86_64".toList, package_b := "foo-1.0-1.x86_64".toList,
         status := '=', sort_key := "foo".toList })
      (by decide)).1.1 rfl⟩

/-! ## C15 and C16: which fields of a parsed line can be empty -/

/-- C15 (counterexample): the line `-1-2.x` parses, with an empty name. -/
theorem parse_package_empty_name :
    parse_package "-1-2.x".toList =
      some { name := [], version := "1-2".toList, arch := "x".toList,
             full_line := "-1-2.x".toList } := by
  decide

/-- C15 (amended): on a line where `parse_package` succeeds the name is empty
exactly when the raw line starts with a hyphen and the text before its last
dot has exactly two hyphens (the line looks like `-version-release.arch`); so
the name is non-empty whenever the raw line does not start with a hyphen. -/
theorem parse_package_name_empty_iff (line : CStr) (pkg : Package)
    (h : parse_package line = some pkg) :
    (pkg.name = [] ↔
      (raw_line line).head? = some '-' ∧ (beforeLast '.' (raw_line line)).count '-' = 2) ∧
    ((raw_line line).head? ≠ some '-' → pkg.name ≠ []) := by
  obtain ⟨n, v, r, a, hraw, ha, hr, hv, rfl⟩ := parse_package_some_split h
  have e2 : beforeLast '.' (raw_line line) = n ++ '-' :: v ++ '-' :: r := by
    rw [hraw]; exact beforeLast_append ha
  have hcount : (n ++ '-' :: v ++ '-' :: r).count '-' = n.count '-' + 2 := by
    simp only [List.count_append, List.count_cons_self, List.count_eq_zero_of_not_mem hv,
      List.count_eq_zero_of_not_mem hr]
  have hname : List.take (MAX_NAME_LENGTH - 1) n = [] ↔ n = [] := by
    cases n with
    | nil => simp
    | cons x xs => simp [MAX_NAME_LENGTH]
  have hiff : n = [] ↔
      (raw_line line).head? = some '-' ∧ (beforeLast '.' (raw_line line)).count '-' = 2 := by
    rw [e2, hcount, hraw]
    constructor
    · rintro rfl
      simp
    · rintro ⟨h1, h2⟩
      cases n with
      | nil => rfl
      | cons x xs =>
        simp only [List.append_assoc, List.cons_append, List.head?_cons,
          Option.some.injEq] at h1
        subst h1
        simp at h2
  refine ⟨hname.trans hiff, ?_⟩
  intro hhead hempty
  exact hhead ((hiff.1 (hname.1 hempty)).1)

/-- C15 (witness): `my-tool-1.2-3.noarch` does not start with a hyphen. -/
theorem parse_package_name_empty_iff_witness :
    parse_package "my-tool-1.2-3.noarch".toList =
      some { name := "my-tool".toList, version := "1.2-3".toList, arch := "noarch".toList,
             full_line := "my-tool-1.2-3.noarch".toList } ∧
    (raw_line "my-tool-1.2-3.noarch".toList).head? ≠ some '-' ∧
    "my-tool".toList ≠ [] :=
  ⟨by decide, by decide,
    (parse_package_name_empty_iff "my-tool-1.2-3.noarch".toList
      { name := "my-tool".toList, version := "1.2-3".toList, arch := "noarch".toList,
        full_line := "my-tool-1.2-3.noarch".toList } (by decide)).2 (by decide)⟩

/-- C16 (counterexample): the line `a-1-2.` parses, with an empty arch. -/
theorem parse_package_empty_arch :
    parse_package "a-1-2.".toList =
      some { name := "a".toList, version := "1-2".toList, arch := [],
             full_line := "a-1-2.".toList } := by
  decide

/-- C16 (amended): on a line where `parse_package` succeeds the version is
non-empty, and the arch is empty exactly when the raw line ends with a dot. -/
theorem parse_package_version_arch_empty (line : CStr) (pkg : Package)
    (h : parse_package line = some pkg) :
    pkg.version ≠ [] ∧ (pkg.arch = [] ↔ (raw_line line).getLast? = some '.') := by
  obtain ⟨n, v, r, a, hraw, ha, hr, hv, rfl⟩ := parse_package_some_split h
  refine ⟨?_, ?_⟩
  · cases v <;> simp [MAX_VERSION_LENGTH]
  · have harch : List.take (MAX_ARCH_LENGTH - 1) a = [] ↔ a = [] := by
      cases a with
      | nil => simp
      | cons x xs => simp [MAX_ARCH_LENGTH]
    simp only
    rw [harch, hraw, ← List.head?_reverse]
    simp only [List.reverse_append, List.reverse_cons]
    cases har : a.reverse with
    | nil =>
      have : a = [] := by simpa using har
      simp [this]
    | cons x xs =>
      have hx : x ∈ a := by
        rw [← List.mem_reverse, har]
        exact List.mem_cons_self _ _
      have hne : a ≠ [] := List.ne_nil_of_mem hx
      simp only [List.cons_append, List.head?_cons, Option.some.injEq, hne, false_iff]
      rintro rfl
      exact ha hx

/-- C16 (witness): `my-tool-1.2-3.noarch` has a non-empty version, and its arch
is non-empty as the line does not end with a dot. -/
theorem parse_package_version_arch_empty_witness :
    parse_package "my-tool-1.2-3.noarch".toList =
      some { name := "my-tool".toList, version := "1.2-3".toList, arch := "noarch".toList,
             full_line := "my-tool-1.2-3.noarch".toList } ∧
    "1.2-3".toList ≠ [] ∧
    ("noarch".toList = [] ↔ (raw_line "my-tool-1.2-3.noarch".toList).getLast? = some '.') :=
  ⟨by decide,
    parse_package_version_arch_empty "my-tool-1.2-3.noarch".toList
      { name := "my-tool".toList, version := "1.2-3".toList, arch := "noarch".toList,
        full_line := "my-tool-1.2-3.noarch".toList } (by decide)⟩

/-! ## C20: the two columns of an Identical row -/

/-- C20 (counterexample): the lines `a-1-2.` followed by 31 `x` and a `y`, and
the same with a `z`, differ, but both parse to name `a`, version `1-2` and the
arch of 31 `x`; matched against each other they give one Identical row whose
two columns differ. -/
theorem identical_row_with_different_text :
    match_results
        (["a-1-2.".toList ++ List.replicate 31 'x' ++ ['y']].filterMap parse_package)
        (["a-1-2.".toList ++ List.replicate 31 'x' ++ ['z']].filterMap parse_package) =
      [{ package_a := "a-1-2.".toList ++ List.replicate 31 'x' ++ ['y'],
         package_b := "a-1-2.".toList ++ List.replicate 31 'x' ++ ['z'],
         status := '=', sort_key := "a".toList }] ∧
    "a-1-2.".toList ++ List.replicate 31 'x' ++ ['y'] ≠
      "a-1-2.".toList ++ List.replicate 31 'x' ++ ['z'] := by
  decide

/-- An Identical row shows the full lines of an A entry and a B entry that are
equal under `packages_equal`. -/
theorem identical_row_meaning (A B : List Package) (r : ComparisonResult)
    (hr : r ∈ match_results A B) (hs : r.status = '=') :
    ∃ a, a ∈ A ∧ ∃ b, b ∈ B ∧ r.package_a = a.full_line ∧ r.package_b = b.full_line ∧
      packages_equal b a = true := by
  obtain ⟨x, hx, rfl⟩ := List.mem_map.1 hr
  rcases mem_match_trace hx with ⟨a, ha, pr, -, rfl⟩ | ⟨i, hi, rfl⟩
  · obtain ⟨s1, -, s3⟩ := match_iteration_spec B B.length a pr
    rcases s3 with ⟨-, h2, -⟩ | ⟨k, -, h2, -, -, h3, -, h5⟩
    · rw [h2] at hs; exact absurd hs (by decide)
    · rcases h5 with ⟨-, h6⟩ | ⟨h5, -⟩
      · exact ⟨a, ha, B.getD k default, getD_mem h2, s1, h3, h6⟩
      · rw [h5] at hs; exact absurd hs (by decide)
  · exact absurd (show '>' = '=' from hs) (by decide)

/-- The pieces the specification names, for a raw line split at its last dot and
the last two hyphens before it. -/
theorem pieces_of_split {raw n v r a : CStr} (hraw : raw = n ++ '-' :: v ++ '-' :: r ++ '.' :: a)
    (ha : '.' ∉ a) (hr : '-' ∉ r) (hv : '-' ∉ v) :
    afterLast '.' raw = a ∧ afterSecondLast '-' (beforeLast '.' raw) = v ++ '-' :: r ∧
      beforeSecondLast '-' (beforeLast '.' raw) = n := by
  have e1 : afterLast '.' raw = a := by rw [hraw]; exact afterLast_append ha
  have e2 : beforeLast '.' raw = n ++ '-' :: v ++ '-' :: r := by
    rw [hraw]; exact beforeLast_append ha
  have e3 : afterLast '-' (n ++ '-' :: v ++ '-' :: r) = r := afterLast_append hr
  have e4 : beforeLast '-' (n ++ '-' :: v ++ '-' :: r) = n ++ '-' :: v := beforeLast_append hr
  have e5 : afterLast '-' (n ++ '-' :: v) = v := afterLast_append hv
  have e6 : beforeLast '-' (n ++ '-' :: v) = n := beforeLast_append hv
  simp only [afterSecondLast, beforeSecondLast, e1, e2, e3, e4, e5, e6, and_self]

/-- A line whose pieces fit the field buffers is stored as
`name-version.arch` of the parsed fields. -/
theorem full_line_of_fields_fit {line : CStr} {pkg : Package}
    (h : parse_package line = some pkg) (hfit : fields_fit line) :
    pkg.full_line = pkg.name ++ '-' :: pkg.version ++ '.' :: pkg.arch := by
  obtain ⟨n, v, r, a, hraw, ha, hr, hv, rfl⟩ := parse_package_some_split h
  obtain ⟨p1, p2, p3⟩ := pieces_of_split hraw ha hr hv
  obtain ⟨f1, f2, f3⟩ := hfit
  rw [p3] at f1
  rw [p2] at f2
  rw [p1] at f3
  simp only
  rw [List.take_of_length_le f1, List.take_of_length_le f2, List.take_of_length_le f3, hraw]
  simp

/-- C20 (amended): for lists loaded by `parse_package` from lines whose name,
version and arch pieces fit the field buffers (at most 255, 127 and 31 bytes),
every result with status `=` has its A column equal to its B column. -/
theorem identical_rows_same_text (lines_a lines_b : List CStr)
    (ha : ∀ l, l ∈ lines_a → fields_fit l) (hb : ∀ l, l ∈ lines_b → fields_fit l)
    (r : ComparisonResult)
    (hr : r ∈ match_results (lines_a.filterMap parse_package)
      (lines_b.filterMap parse_package))
    (hs : r.status = '=') : r.package_a = r.package_b := by
  obtain ⟨a, hma, b, hmb, e1, e2, heq⟩ := identical_row_meaning _ _ r hr hs
  obtain ⟨la, hla, hpa⟩ := List.mem_filterMap.1 hma
  obtain ⟨lb, hlb, hpb⟩ := List.mem_filterMap.1 hmb
  obtain ⟨n1, n2, n3⟩ := packages_equal_iff.1 heq
  rw [e1, e2, full_line_of_fields_fit hpa (ha la hla),
    full_line_of_fields_fit hpb (hb lb hlb), n1, n2, n3]

/-- C20 (witness): A = [`foo-1.0-1.x86_64`, `bar-2-1.noarch`] and
B = [`bar-2-1.noarch`] as lines; the Identical row for `bar` shows the same
text twice. -/
theorem identical_rows_same_text_witness :
    match_results
        (["foo-1.0-1.x86_64".toList, "bar-2-1.noarch".toList].filterMap parse_package)
        (["bar-2-1.noarch".toList].filterMap parse_package) =
      [{ package_a := "foo-1.0-1.x86_64".toList, package_b := [], status := '<',
         sort_key := "foo".toList },
       { package_a := "bar-2-1.noarch".toList, package_b := "bar-2-1.noarch".toList,
         status := '=', sort_key := "bar".toList }] ∧
    "bar-2-1.noarch".toList = "bar-2-1.noarch".toList :=
  ⟨by decide,
    identical_rows_same_text
      ["foo-1.0-1.x86_64".toList, "bar-2-1.noarch".toList] ["bar-2-1.noarch".toList]
      (by decide) (by decide)
      { package_a := "bar-2-1.noarch".toList, package_b := "bar-2-1.noarch".toList,
        status := '=', sort_key := "bar".toList }
      (by decide) rfl⟩

/-! ## C13: loading a list -/

/-- The first line of a non-empty file content: it ends with the first newline,
or it is the whole content when there is no newline. -/
theorem file_lines_first (stream : List Char) (h : stream ≠ []) :
    (∃ p rest, '\n' ∉ p ∧ stream = p ++ '\n' :: rest ∧
        file_lines stream = (p ++ ['\n']) :: file_lines rest) ∨
      ('\n' ∉ stream ∧ file_lines stream = [stream]) := by
  induction stream with
  | nil => exact absurd rfl h
  | cons c cs ih =>
    by_cases hc : c = '\n'
    · subst hc
      exact Or.inl ⟨[], cs, List.not_mem_nil _, rfl, by simp [file_lines]⟩
    · cases cs with
      | nil =>
        refine Or.inr ⟨?_, ?_⟩
        · simpa using Ne.symm hc
        · simp [file_lines, hc]
      | cons d ds =>
        rcases ih (List.cons_ne_nil _ _) with ⟨p, rest, hp, hs, hl⟩ | ⟨hn, hl⟩
        · refine Or.inl ⟨c :: p, rest, ?_, ?_, ?_⟩
          · simp only [List.mem_cons, not_or]
            exact ⟨Ne.symm hc, hp⟩
          · rw [hs]; rfl
          · rw [file_lines, if_neg hc, hl]
            rfl
        · refine Or.inr ⟨?_, ?_⟩
          · simp only [List.mem_cons, not_or] at hn ⊢
            exact ⟨Ne.symm hc, hn⟩
          · rw [file_lines, if_neg hc, hl]

theorem fgets_line {size : Nat} {p rest : List Char} (hp : '\n' ∉ p)
    (hlen : (p ++ ['\n']).length ≤ size - 1) :
    fgets size (p ++ '\n' :: rest) = some (p ++ ['\n'], rest) := by
  have hlen' : p.length + 1 ≤ size - 1 := by simpa using hlen
  have htake : List.take (size - 1) (p ++ '\n' :: rest) =
      p ++ '\n' :: List.take (size - 1 - p.length - 1) rest := by
    rw [List.take_append_eq_append_take, List.take_of_length_le (by omega)]
    obtain ⟨k, hk⟩ : ∃ k, size - 1 - p.length = k + 1 := ⟨size - 1 - p.length - 1, by omega⟩
    rw [hk, List.take_succ_cons]
    simp
  have hne : p ++ '\n' :: rest ≠ [] := by simp
  have hunf : fgets size (p ++ '\n' :: rest) =
      some (List.take (match strchr (List.take (size - 1) (p ++ '\n' :: rest)) '\n' with
          | some newline => newline + 1
          | none => (List.take (size - 1) (p ++ '\n' :: rest)).length) (p ++ '\n' :: rest),
        List.drop (match strchr (List.take (size - 1) (p ++ '\n' :: rest)) '\n' with
          | some newline => newline + 1
          | none => (List.take (size - 1) (p ++ '\n' :: rest)).length) (p ++ '\n' :: rest)) := by
    cases hs : p ++ '\n' :: rest with
    | nil => exact absurd hs hne
    | cons x xs => rfl
  rw [hunf, htake, strchr_append_of_not_mem _ hp]
  simp only
  have e1 : List.take (p.length + 1) (p ++ '\n' :: rest) = p ++ ['\n'] := by
    have : p ++ '\n' :: rest = (p ++ ['\n']) ++ rest := by simp
    rw [this]
    exact List.take_left' (by simp)
  have e2 : List.drop (p.length + 1) (p ++ '\n' :: rest) = rest := by
    have : p ++ '\n' :: rest = (p ++ ['\n']) ++ rest := by simp
    rw [this]
    exact List.drop_left' (by simp)
  rw [e1, e2]

theorem fgets_last {size : Nat} {stream : List Char} (hne : stream ≠ [])
    (hn : '\n' ∉ stream) (hlen : stream.length ≤ size - 1) :
    fgets size stream = some (stream, []) := by
  cases stream with
  | nil => exact absurd rfl hne
  | cons x xs =>
    simp only [fgets]
    rw [List.take_of_length_le hlen, strchr_eq_none.2 hn]
    simp

/-- The read loop on a file whose lines fit the line buffer: it appends the
parsed lines, in order, until the array is full. -/
theorem read_loop_eq (max_count : Nat) :
    ∀ (fuel : Nat) (stream : List Char) (packages : List Package), stream.length ≤ fuel →
      (∀ l, l ∈ file_lines stream → l.length ≤ MAX_LINE_LENGTH - 1) →
      read_loop max_count fuel stream packages =
        packages ++ ((((file_lines stream).map c_string).filter
          fun l => decide (1 < l.length)).filterMap
            parse_package).take (max_count - packages.length) := by
  intro fuel
  induction fuel with
  | zero =>
    intro stream packages hlen _
    have : stream = [] := List.length_eq_zero.1 (by omega)
    subst this
    simp [read_loop, file_lines]
  | succ fuel ih =>
    intro stream packages hlen hlines
    by_cases hne : stream = []
    · subst hne
      simp [read_loop, fgets, file_lines]
    · have key : ∃ l rest, fgets MAX_LINE_LENGTH stream = some (l, rest) ∧
          file_lines stream = l :: file_lines rest ∧ rest.length < stream.length := by
        rcases file_lines_first stream hne with ⟨p, rest, hp, hs, hl⟩ | ⟨hn, hl⟩
        · refine ⟨p ++ ['\n'], rest, ?_, hl, ?_⟩
          · rw [hs]
            exact fgets_line hp (hlines _ (by rw [hl]; exact List.mem_cons_self _ _))
          · rw [hs]; simp only [List.length_append, List.length_cons]; omega
        · refine ⟨stream, [], ?_, ?_, ?_⟩
          · exact fgets_last hne hn (hlines _ (by rw [hl]; exact List.mem_cons_self _ _))
          · rw [hl]; rfl
          · exact List.length_pos.2 hne
      obtain ⟨l, rest, hf, hl, hlt⟩ := key
      have hrest : ∀ l', l' ∈ file_lines rest → l'.length ≤ MAX_LINE_LENGTH - 1 :=
        fun l' hl' => hlines l' (by rw [hl]; exact List.mem_cons_of_mem _ hl')
      rw [read_loop, hf, hl, List.map_cons]
      simp only
      by_cases hfull : packages.length < max_count
      · rw [if_pos hfull]
        by_cases hshort : (c_string l).length ≤ 1
        · rw [if_pos hshort, ih rest packages (by omega) hrest]
          have : decide (1 < (c_string l).length) = false := by simpa using hshort
          rw [List.filter_cons, this]
          simp
        · rw [if_neg hshort]
          have : decide (1 < (c_string l).length) = true := by simpa using hshort
          rw [List.filter_cons, this]
          simp only [if_true, List.filterMap_cons]
          cases hparse : parse_package (c_string l) with
          | none =>
            simp only
            exact ih rest packages (by omega) hrest
          | some pkg =>
            simp only
            rw [ih rest (packages ++ [pkg]) (by omega) hrest]
            obtain ⟨k, hk⟩ : ∃ k, max_count - packages.length = k + 1 :=
              ⟨max_count - packages.length - 1, by omega⟩
            have hk' : max_count - (packages ++ [pkg]).length = k := by
              simp only [List.length_append, List.length_singleton]; omega
            rw [hk, hk', List.take_succ_cons]
            simp
      · rw [if_neg hfull]
        have : max_count - packages.length = 0 := by omega
        rw [this]
        simp

/-- No line of at most one byte parses. -/
theorem parse_package_short {l : CStr} (h : l.length ≤ 1) : parse_package l = none := by
  cases hp : parse_package l with
  | none => rfl
  | some pkg =>
    obtain ⟨n, v, r, a, hraw, -⟩ := parse_package_some_split hp
    have h1 : (raw_line l).length ≤ l.length := by
      unfold raw_line
      exact le_trans (List.Sublist.length_le (List.takeWhile_sublist _))
        (List.Sublist.length_le (List.take_sublist _ _))
    rw [hraw] at h1
    simp only [List.length_append, List.length_cons] at h1
    omega

theorem filterMap_parse_filter (lines : List CStr) :
    (lines.filter fun l => decide (1 < l.length)).filterMap parse_package =
      lines.filterMap parse_package := by
  induction lines with
  | nil => rfl
  | cons l ls ih =>
    by_cases h : 1 < l.length
    · simp only [List.filter_cons, h, decide_True, if_true, List.filterMap_cons, ih]
    · have hs := parse_package_short (l := l) (by omega)
      simp only [List.filter_cons, h, decide_False, Bool.false_eq_true, if_false,
        List.filterMap_cons, hs, ih]

set_option maxRecDepth 1000000 in
/-- C13 (counterexample): a file with the single line `a-1-2.`, 505 `x`,
`b-1-2.y` and a newline (519 bytes).  `fgets` delivers it in two pieces of 511
and 8 bytes, both parse, and `read_packages` returns two packages; the one
line of the file parses to one package. -/
theorem read_packages_splits_long_line :
    read_packages (some ("a-1-2.".toList ++ List.replicate 505 'x' ++ "b-1-2.y\n".toList))
        MAX_PACKAGES =
      some [{ name := "a".toList, version := "1-2".toList, arch := List.replicate 31 'x',
              full_line := "a-1-2.".toList ++ List.replicate 505 'x' },
            { name := "b".toList, version := "1-2".toList, arch := "y".toList,
              full_line := "b-1-2.y".toList }] ∧
    file_lines ("a-1-2.".toList ++ List.replicate 505 'x' ++ "b-1-2.y\n".toList) =
      ["a-1-2.".toList ++ List.replicate 505 'x' ++ "b-1-2.y\n".toList] ∧
    ((file_lines ("a-1-2.".toList ++ List.replicate 505 'x' ++ "b-1-2.y\n".toList)).filter
        fun l => decide (1 < l.length)).filterMap parse_package =
      [{ name := "a".toList, version := "1-2".toList, arch := List.replicate 31 'x',
         full_line := "a-1-2.".toList ++ List.replicate 505 'x' }] := by
  decide

theorem file_lines_flatten (content : List Char) : (file_lines content).flatten = content := by
  induction content with
  | nil => rfl
  | cons c cs ih =>
    by_cases hc : c = '\n'
    · rw [file_lines, if_pos hc, List.flatten_cons, ih]
      rfl
    · rw [file_lines, if_neg hc]
      cases hl : file_lines cs with
      | nil =>
        rw [hl] at ih
        simp only [List.flatten_nil] at ih
        rw [← ih]
        rfl
      | cons l ls =>
        rw [hl] at ih
        simp only [List.flatten_cons, List.cons_append] at ih ⊢
        rw [ih]

theorem c_string_of_no_nul {buffer : List Char} (h : Char.ofNat 0 ∉ buffer) :
    c_string buffer = buffer := by
  unfold c_string
  rw [List.takeWhile_eq_self_iff]
  intro x hx
  have : x ≠ Char.ofNat 0 := fun e => h (e ▸ hx)
  simpa using this

/-- In a file without NUL bytes every line is its own C string. -/
theorem map_c_string_file_lines {content : List Char} (h : Char.ofNat 0 ∉ content) :
    (file_lines content).map c_string = file_lines content := by
  conv_rhs => rw [← List.map_id (file_lines content)]
  apply List.map_congr_left
  intro l hl
  apply c_string_of_no_nul
  intro hm
  apply h
  rw [← file_lines_flatten content]
  exact List.mem_flatten.2 ⟨l, hl, hm⟩

/-- A file with NUL bytes: `strlen` and `parse_package` see each line up to its
first NUL byte only.  Of the three lines NUL `a-1-2.x`, `b-1-2.y` and
`c-1-2` NUL `.z` only the second one loads. -/
theorem read_packages_nul_bytes :
    read_packages
        (some (Char.ofNat 0 :: "a-1-2.x\nb-1-2.y\nc-1-2".toList ++
          Char.ofNat 0 :: ".z\n".toList)) MAX_PACKAGES =
      some [{ name := "b".toList, version := "1-2".toList, arch := "y".toList,
              full_line := "b-1-2.y".toList }] := by
  decide

/-- C13 (amended): list loading.  For a file all of whose lines (newline
included) have at most 511 bytes, `read_packages` returns, in the order of the
file, the parsed identifiers of the lines of length greater than 1 on which
`parse_package` succeeds, up to the capacity `max_count` of the array (the
first `max_count` of them); the returned count is the length of that list.
Each line counts as the C string it holds: up to its first NUL byte, whole
when the file has no NUL byte.  The test on the length drops nothing that
would parse. -/
theorem read_packages_lines (content : List Char) (max_count : Nat)
    (hlines : ∀ l, l ∈ file_lines content → l.length ≤ MAX_LINE_LENGTH - 1) :
    read_packages (some content) max_count =
      some (((((file_lines content).map c_string).filter
        fun l => decide (1 < l.length)).filterMap parse_package).take max_count) ∧
    (((file_lines content).map c_string).filter fun l => decide (1 < l.length)).filterMap
        parse_package =
      ((file_lines content).map c_string).filterMap parse_package ∧
    (Char.ofNat 0 ∉ content → (file_lines content).map c_string = file_lines content) := by
  refine ⟨?_, filterMap_parse_filter _, map_c_string_file_lines⟩
  unfold read_packages
  simp only
  rw [read_loop_eq max_count content.length content [] (le_refl _) hlines]
  simp

/-- C13 (witness): the file with the lines `foo-1.0-1.x86_64`, `badline`, an
empty line and `bar-2-1.noarch` loads as two packages; `badline` is dropped
and not counted. -/
theorem read_packages_lines_witness :
    read_packages (some "foo-1.0-1.x86_64\nbadline\n\nbar-2-1.noarch\n".toList) MAX_PACKAGES =
      some [{ name := "foo".toList, version := "1.0-1".toList, arch := "x86_64".toList,
              full_line := "foo-1.0-1.x86_64".toList },
            { name := "bar".toList, version := "2-1".toList, arch := "noarch".toList,
              full_line := "bar-2-1.noarch".toList }] :=
  (read_packages_lines "foo-1.0-1.x86_64\nbadline\n\nbar-2-1.noarch\n".toList MAX_PACKAGES
    (by decide)).1.trans (by decide)

/-! ## The fuel of the read loop -/

theorem fgets_consumes {stream line rest : List Char}
    (h : fgets MAX_LINE_LENGTH stream = some (line, rest)) : rest.length < stream.length := by
  cases stream with
  | nil => simp [fgets] at h
  | cons x xs =>
    simp only [fgets, Option.some.injEq, Prod.mk.injEq] at h
    obtain ⟨-, h2⟩ := h
    rw [← h2, List.length_drop]
    have hpos : 0 < (x :: xs).length := by simp
    have hn : 0 < (match strchr (List.take (MAX_LINE_LENGTH - 1) (x :: xs)) '\n' with
        | some newline => newline + 1
        | none => (List.take (MAX_LINE_LENGTH - 1) (x :: xs)).length) := by
      cases strchr (List.take (MAX_LINE_LENGTH - 1) (x :: xs)) '\n' with
      | some k => simp
      | none => simp [MAX_LINE_LENGTH]
    omega

/-- The read loop does not depend on the fuel once the fuel is at least the
number of bytes left in the stream: every iteration consumes a byte. -/
theorem read_loop_fuel (max_count : Nat) :
    ∀ (fuel₁ fuel₂ : Nat) (stream : List Char) (packages : List Package),
      stream.length ≤ fuel₁ → stream.length ≤ fuel₂ →
      read_loop max_count fuel₁ stream packages = read_loop max_count fuel₂ stream packages := by
  intro fuel₁
  induction fuel₁ with
  | zero =>
    intro fuel₂ stream packages h1 _
    have : stream = [] := List.length_eq_zero.1 (by omega)
    subst this
    cases fuel₂ <;> simp [read_loop, fgets]
  | succ fuel₁ ih =>
    intro fuel₂ stream packages h1 h2
    cases fuel₂ with
    | zero =>
      have : stream = [] := List.length_eq_zero.1 (by omega)
      subst this
      simp [read_loop, fgets]
    | succ fuel₂ =>
      rw [read_loop, read_loop]
      cases hf : fgets MAX_LINE_LENGTH stream with
      | none => rfl
      | some lr =>
        obtain ⟨line, rest⟩ := lr
        have hlt := fgets_consumes hf
        simp only
        rw [ih fuel₂ rest packages (by omega) (by omega)]
        cases parse_package (c_string line) with
        | none => rfl
        | some pkg => simp only; rw [ih fuel₂ rest (packages ++ [pkg]) (by omega) (by omega)]

/-! ## C14: argument handling -/

/-- C14: what the option parsing of `main` does.  The usage message with exit
code 1 comes exactly when `argc` is below 3 or above 5.  The three shapes
`fileA fileB`, `--xlsx fileA fileB` and `--xlsx outputPath fileA fileB` are
accepted as console mode, CSV mode with the default output path and CSV mode
with the given output path.  But three or four arguments that do not start
with `--xlsx` are accepted too: `main` goes on in console mode with the first
two as the files and ignores the rest, as for `pkgdiff a.txt b.txt c.txt` and
`pkgdiff a.txt b.txt c.txt d.txt`. -/
theorem extra_arguments_accepted :
    (∀ argv : List CStr, parse_options argv = none ↔ argv.length < 3 ∨ 5 < argv.length) ∧
    (∀ prog a b : CStr, parse_options [prog, a, b] =
      some { xlsx_output := false, file_a := a, file_b := b,
             output_file := "rpm_diff_result.csv".toList }) ∧
    (∀ prog a b : CStr, parse_options [prog, "--xlsx".toList, a, b] =
      some { xlsx_output := true, file_a := a, file_b := b,
             output_file := "rpm_diff_result.csv".toList }) ∧
    (∀ prog o a b : CStr, parse_options [prog, "--xlsx".toList, o, a, b] =
      some { xlsx_output := true, file_a := a, file_b := b, output_file := o }) ∧
    parse_options ["pkgdiff".toList, "a.txt".toList, "b.txt".toList, "c.txt".toList] =
      some { xlsx_output := false, file_a := "a.txt".toList, file_b := "b.txt".toList,
             output_file := "rpm_diff_result.csv".toList } ∧
    parse_options
        ["pkgdiff".toList, "a.txt".toList, "b.txt".toList, "c.txt".toList, "d.txt".toList] =
      some { xlsx_output := false, file_a := "a.txt".toList, file_b := "b.txt".toList,
             output_file := "rpm_diff_result.csv".toList } := by
  have hx : strcmp ['-', '-', 'x', 'l', 's', 'x'] ['-', '-', 'x', 'l', 's', 'x'] = 0 := by
    decide
  refine ⟨?_, ?_, ?_, ?_, by decide, by decide⟩
  · intro argv
    unfold parse_options
    simp only
    by_cases h : argv.length < 3 ∨ argv.length > 5
    · rw [if_pos h]
      simpa using h
    · rw [if_neg h]
      simp only [reduceCtorEq, false_iff]
      exact h
  · intro prog a b
    simp [parse_options]
  · intro prog a b
    simp [parse_options, hx]
  · intro prog o a b
    simp [parse_options, hx]

end PkgDiff
